import Mathlib

/-!
# Verification of the embedded bencode codec (EmBencode.h)

A shallow embedding of the single-header C++ library `src/EmBencode.h`:

* the encoder `EmBencode<bufLen>` (push operations emitting wire bytes
  through `PushChar`),
* the decoder `EmBdecode<bufLen>` (the byte-at-a-time state machine
  `process`, the internal buffer writer `AddToBuf`, `reset`),
* the token iterator (`nextToken`, `asString`, `asNumber`).

Bytes are modelled as `Nat` values `< 256`; the 8-bit fields of the C
classes (`uint8_t count, next, last`, the signed `char level`, the
`uint8_t buffIdx` of the encoder) are modelled with explicit `% 256`
(resp. a signed 8-bit wrap for `level`) at every point where the C code
performs 8-bit arithmetic.
-/

set_option maxHeartbeats 1600000

namespace EmBenc

/-! ## Decimal digit strings

`decChars n` is the list of ASCII codes produced by `ultoa(n, buf, 10)`
(used by `EmBencode::PushCount`): the decimal digits of `n`, most
significant first, with `0` rendered as `"0"`. -/

/-- Digit-extraction loop of `ultoa`: repeated division by 10,
prepending each digit character (fueled; fuel `n` suffices). -/
def decCharsAux : Nat → Nat → List Nat → List Nat
  | 0, _, acc => acc
  | f + 1, n, acc => if n = 0 then acc else decCharsAux f (n / 10) ((n % 10 + 48) :: acc)

/-- ASCII decimal representation of a natural number, as emitted by
`ultoa(num, buf, 10)` in `EmBencode::PushCount`. -/
def decChars (n : Nat) : List Nat :=
  if n = 0 then [48] else decCharsAux n n []

theorem decCharsAux_eq : ∀ (f n : Nat) (acc : List Nat), n ≤ f →
    decCharsAux f n acc = ((Nat.digits 10 n).map (fun d => d + 48)).reverse ++ acc := by
  intro f
  induction f with
  | zero =>
    intro n acc hn
    have : n = 0 := by omega
    subst this
    simp [decCharsAux]
  | succ f ih =>
    intro n acc hn
    by_cases h0 : n = 0
    · subst h0
      simp [decCharsAux]
    · have hlt : n / 10 ≤ f := by
        have := Nat.div_lt_self (Nat.pos_of_ne_zero h0) (by norm_num : 1 < 10)
        omega
      simp only [decCharsAux, if_neg h0]
      rw [ih (n / 10) _ hlt]
      rw [Nat.digits_def' (by norm_num : 1 < 10) (Nat.pos_of_ne_zero h0)]
      simp

/-- `decChars` agrees with the `Nat.digits`-based characterization. -/
theorem decChars_eq (n : Nat) : decChars n
    = if n = 0 then [48] else ((Nat.digits 10 n).map (fun d => d + 48)).reverse := by
  unfold decChars
  split
  · rfl
  · rw [decCharsAux_eq n n [] (le_refl n)]
    simp

theorem decChars_ne_nil (n : Nat) : decChars n ≠ [] := by
  rw [decChars_eq]
  split
  · simp
  · next h =>
    simp only [ne_eq, List.reverse_eq_nil_iff, List.map_eq_nil_iff]
    exact Nat.digits_ne_nil_iff_ne_zero.2 h

theorem mem_decChars {n c : Nat} (h : c ∈ decChars n) : 48 ≤ c ∧ c ≤ 57 := by
  rw [decChars_eq] at h
  split at h
  · simp at h; omega
  · simp only [List.mem_reverse, List.mem_map] at h
    obtain ⟨d, hd, rfl⟩ := h
    have := Nat.digits_lt_base (by norm_num) hd
    omega

/-- Evaluating a most-significant-first digit list by repeated
`acc := 10 * acc + d` recovers the number (`Nat.ofDigits` is
least-significant-first, hence the `reverse`). -/
theorem foldl_ofDigits (l : List Nat) (a : Nat) :
    List.foldl (fun acc d => 10 * acc + d) a l.reverse
      = a * 10 ^ l.length + Nat.ofDigits 10 l := by
  induction l generalizing a with
  | nil => simp [Nat.ofDigits_nil]
  | cons d tl ih =>
    simp only [List.reverse_cons, List.foldl_append, List.foldl_cons, List.foldl_nil,
      List.length_cons, Nat.ofDigits_cons, ih]
    ring

/-- The 8-bit accumulator `count = 10 * count + digit` (an `uint8_t`)
computes the same value as the unbounded accumulator, modulo 256. -/
theorem foldl_count_mod (l : List Nat) :
    ∀ a b : Nat, a % 256 = b % 256 →
      (List.foldl (fun acc d => (10 * acc + d) % 256) a l) % 256
        = (List.foldl (fun acc d => 10 * acc + d) b l) % 256 := by
  induction l with
  | nil => intro a b h; simpa using h
  | cons d tl ih =>
    intro a b h
    simp only [List.foldl_cons]
    exact ih _ _ (by omega)

theorem foldl_count_lt (l : List Nat) : ∀ a : Nat, a < 256 →
    List.foldl (fun acc d => (10 * acc + d) % 256) a l < 256 := by
  induction l with
  | nil => intro a h; simpa using h
  | cons d tl ih => intro a h; exact ih _ (Nat.mod_lt _ (by omega))

/-- Feeding the decimal digit characters of `n` through the decoder's
length accumulator (`count = 10 * count + (ch - '0')` on an `uint8_t`)
yields `n % 256`. -/
theorem count_decChars (n : Nat) :
    List.foldl (fun acc c => (10 * acc + (c - 48)) % 256) 0 (decChars n) = n % 256 := by
  rw [decChars_eq]
  split
  · next h => subst h; simp
  · next h =>
    rw [← List.map_reverse, List.foldl_map]
    simp only [Nat.add_sub_cancel]
    have hlt : List.foldl (fun acc d => (10 * acc + d) % 256) 0 (Nat.digits 10 n).reverse
        < 256 := foldl_count_lt _ 0 (by omega)
    have hmod := foldl_count_mod (Nat.digits 10 n).reverse 0 0 rfl
    rw [Nat.mod_eq_of_lt hlt] at hmod
    rw [hmod, foldl_ofDigits, Nat.ofDigits_digits]
    simp

/-- Pure (no 8-bit truncation) version: evaluating the digit characters
of `n` recovers `n` exactly. -/
theorem foldl_decChars_pure (n : Nat) :
    List.foldl (fun acc c => 10 * acc + (c - 48)) 0 (decChars n) = n := by
  rw [decChars_eq]
  split
  · next h => subst h; simp
  · next h =>
    rw [← List.map_reverse, List.foldl_map]
    simp only [Nat.add_sub_cancel]
    rw [foldl_ofDigits, Nat.ofDigits_digits]
    simp

/-! ## A model of `atol`

`EmBdecode::asNumber` calls `atol(buffer + last)`: skip leading
whitespace, an optional sign, then accumulate decimal digits until the
first non-digit character. -/

/-- Digit-accumulation loop of `atol`: consume decimal digit characters,
stopping at the first non-digit. -/
def atolDigits : List Nat → Nat → Nat
  | [], a => a
  | c :: cs, a => if 48 ≤ c ∧ c ≤ 57 then atolDigits cs (10 * a + (c - 48)) else a

/-- Whitespace test used by `atol` (`isspace`). -/
def isSpaceByte (c : Nat) : Bool := c = 32 || (9 ≤ c && c ≤ 13)

/-- Sign handling of `atol`, applied after whitespace skipping. -/
def atolSigned : List Nat → Int
  | [] => 0
  | c :: rest =>
    if c = 45 then -(atolDigits rest 0 : Int)
    else if c = 43 then (atolDigits rest 0 : Int)
    else (atolDigits (c :: rest) 0 : Int)

/-- Model of the C library function `atol`: optional whitespace, optional
`+`/`-` sign, then decimal digits (undefined behavior on overflow is not
modelled; the theorems using it assume the value fits in 32 bits). -/
def atolM (l : List Nat) : Int :=
  atolSigned (l.dropWhile isSpaceByte)

theorem atolDigits_all_digits (l : List Nat) :
    ∀ a : Nat, (∀ c ∈ l, 48 ≤ c ∧ c ≤ 57) →
      atolDigits l a = List.foldl (fun acc c => 10 * acc + (c - 48)) a l := by
  induction l with
  | nil => intro a _; rfl
  | cons c cs ih =>
    intro a h
    have hc := h c (by simp)
    simp only [atolDigits, if_pos hc, List.foldl_cons]
    exact ih _ (fun x hx => h x (by simp [hx]))

theorem atolDigits_decChars (n : Nat) : atolDigits (decChars n) 0 = n := by
  rw [atolDigits_all_digits _ _ (fun c hc => mem_decChars hc), foldl_decChars_pure]

/-! ## The integer text emitted by the encoder

`EmBencode::push(long val)` emits `'i'`, then `'-'` and the negated
value if `val < 0`, then `ultoa` digits of the magnitude (passed through
the `uint32_t` parameter of `PushCount`), then `'e'`. -/

/-- The magnitude passed to `PushCount` by `push(long val)`: `-val`
(resp. `val`) converted to `uint32_t`. -/
def intMag (v : Int) : Nat := (if v < 0 then -v else v).toNat % 2 ^ 32

/-- The character sequence between `i` and `e` for an integer: an
optional `-` followed by the decimal digits of the magnitude. -/
def intText (v : Int) : List Nat := (if v < 0 then [45] else []) ++ decChars (intMag v)

theorem intMag_eq {v : Int} (h1 : -2147483648 < v) (h2 : v < 2147483648) :
    intMag v = v.natAbs := by
  unfold intMag
  split <;> omega

theorem mem_intText {v : Int} {c : Nat} (h : c ∈ intText v) :
    c = 45 ∨ (48 ≤ c ∧ c ≤ 57) := by
  unfold intText at h
  rw [List.mem_append] at h
  rcases h with h | h
  · split at h <;> simp_all
  · exact Or.inr (mem_decChars h)

theorem intText_ne_zero {v : Int} {c : Nat} (h : c ∈ intText v) : c ≠ 0 := by
  rcases mem_intText h with h | h <;> omega

theorem intText_ne_e {v : Int} {c : Nat} (h : c ∈ intText v) : c ≠ 101 := by
  rcases mem_intText h with h | h <;> omega

/-- `atol` inverts the integer text produced by the encoder, for values
within the 32-bit signed range. -/
theorem atolM_intText {v : Int} (h1 : -2147483648 < v) (h2 : v < 2147483648) :
    atolM (intText v) = v := by
  have hmag := intMag_eq h1 h2
  unfold intText atolM
  split
  · next hneg =>
    simp only [List.cons_append, List.nil_append, List.dropWhile_cons]
    simp [isSpaceByte, atolSigned, atolDigits_decChars, hmag]
    rw [abs_of_neg hneg]
    ring
  · next hpos =>
    simp only [List.nil_append]
    obtain ⟨c, rest, hcr⟩ : ∃ c rest, decChars (intMag v) = c :: rest := by
      cases hd : decChars (intMag v) with
      | nil => exact absurd hd (decChars_ne_nil _)
      | cons c rest => exact ⟨c, rest, rfl⟩
    have hc : 48 ≤ c ∧ c ≤ 57 := mem_decChars (by rw [hcr]; simp)
    rw [hcr, List.dropWhile_cons]
    have hsp : isSpaceByte c = false := by simp [isSpaceByte]; omega
    rw [hsp]
    simp only [Bool.false_eq_true, if_false, atolSigned]
    rw [if_neg (by omega), if_neg (by omega), ← hcr, atolDigits_decChars, hmag]
    omega

/-! ## Bencode values

The abstract value model of §3 of the spec: byte strings, signed
integers, lists and dictionaries.  A mutual inductive is used so that
structural recursion over nested lists/dictionaries is available. -/

mutual
/-- A bencode value. -/
inductive BVal : Type
  | str (b : List Nat) : BVal
  | intg (n : Int) : BVal
  | list (xs : BList) : BVal
  | dict (ps : BPairs) : BVal
  deriving DecidableEq
/-- A sequence of bencode values (payload of a list). -/
inductive BList : Type
  | nil : BList
  | cons (v : BVal) (tl : BList) : BList
  deriving DecidableEq
/-- A sequence of key/value pairs (payload of a dictionary). -/
inductive BPairs : Type
  | nil : BPairs
  | cons (k : List Nat) (v : BVal) (tl : BPairs) : BPairs
  deriving DecidableEq
end

mutual
/-- A value is representable by this codec when its byte strings are
genuine bytes of length at most 250 (string lengths share the tag byte
with the control tags 251-255) and its integers fit the 32-bit signed
range excluding the minimum (whose negation in `push(long)` would
overflow). -/
def goodV : BVal → Bool
  | .str b => decide (b.length ≤ 250) && b.all (fun c => decide (c < 256))
  | .intg n => decide (-2147483648 < n) && decide (n < 2147483648)
  | .list xs => goodL xs
  | .dict ps => goodP ps
def goodL : BList → Bool
  | .nil => true
  | .cons v tl => goodV v && goodL tl
def goodP : BPairs → Bool
  | .nil => true
  | .cons k v tl =>
    (decide (k.length ≤ 250) && k.all (fun c => decide (c < 256))) && goodV v && goodP tl
end

mutual
/-- Maximum nesting depth of a value (scalars have depth 0). -/
def depthV : BVal → Nat
  | .str _ => 0
  | .intg _ => 0
  | .list xs => 1 + depthL xs
  | .dict ps => 1 + depthP ps
def depthL : BList → Nat
  | .nil => 0
  | .cons v tl => max (depthV v) (depthL tl)
def depthP : BPairs → Nat
  | .nil => 0
  | .cons _ v tl => max (depthV v) (depthP tl)
end

/-! ## The encoder (`EmBencode`)

Each public push operation emits characters through `PushChar`; the
emitted character sequences are modelled as lists of bytes. -/

/-- Wire bytes emitted by `push(const void* ptr, uint8_t len)` for a
byte string (`PushCount(len)`, `':'`, then the raw data).  Faithful to
the C code when `b.length ≤ 255` (the `uint8_t len` parameter). -/
def pushStrB (b : List Nat) : List Nat := decChars b.length ++ 58 :: b

/-- Wire bytes emitted by `push(long val)`: `'i'`, an optional `'-'`
with the negated magnitude, the decimal digits, then `'e'`. -/
def pushLongB (v : Int) : List Nat := 105 :: (intText v ++ [101])

mutual
/-- Wire encoding of a value by the encoder's push operations:
`push` for strings and integers, `startList`/`endList` (`'l'`/`'e'`)
around list members, `startDict`/`endDict` (`'d'`/`'e'`) around
key/value pairs. -/
def encodeVal : BVal → List Nat
  | .str b => pushStrB b
  | .intg n => pushLongB n
  | .list xs => 108 :: (encodeList xs ++ [101])
  | .dict ps => 100 :: (encodePairs ps ++ [101])
def encodeList : BList → List Nat
  | .nil => []
  | .cons v tl => encodeVal v ++ encodeList tl
def encodePairs : BPairs → List Nat
  | .nil => []
  | .cons k v tl => pushStrB k ++ encodeVal v ++ encodePairs tl
end

/-- Encoder instance state: the fixed `uint8_t buffer[bufLen]` and the
`uint8_t buffIdx` output cursor. -/
structure EncState : Type where
  buffer : List Nat
  buffIdx : Nat
  deriving DecidableEq

/-- `EmBencode::PushChar`: writes `buffer[buffIdx] = ch; buffIdx++`
with no bounds check.  The write is a list update (out-of-range C
writes, which touch memory outside the modelled buffer, have no
representable effect on it); the `uint8_t` cursor wraps modulo 256. -/
def pushChar (s : EncState) (ch : Nat) : EncState :=
  { buffer := s.buffer.set s.buffIdx ch, buffIdx := (s.buffIdx + 1) % 256 }

/-- Repeated `PushChar` calls. -/
def pushChars (s : EncState) (l : List Nat) : EncState := l.foldl pushChar s

/-! ## The decoder (`EmBdecode`)

State fields of `EmBdecode<bufLen>`: `char level`, `char buffer[bufLen]`,
`uint8_t count, next, last, state`.  The buffer is a fixed-length list
(its length plays the role of the template parameter `bufLen`); `level`
is a signed 8-bit quantity, the others unsigned 8-bit. -/

/-- Decoder/iterator state. -/
structure DState : Type where
  level : Int
  buffer : List Nat
  count : Nat
  next : Nat
  last : Nat
  state : Nat
  deriving DecidableEq

/-- Token tags (`T_STRING` is also the string length, 0..250). -/
def tString : Nat := 0
def tNumber : Nat := 251
def tDict : Nat := 252
def tList : Nat := 253
def tPop : Nat := 254
def tEnd : Nat := 255

/-- Parse states (`EMB_ANY, EMB_LEN, EMB_INT, EMB_STR`). -/
def embAny : Nat := 0
def embLen : Nat := 1
def embInt : Nat := 2
def embStr : Nat := 3

/-- Signed 8-bit wraparound for the `char level` counter. -/
def wrap8 (x : Int) : Int := (x + 128) % 256 - 128

/-- `EmBdecode::AddToBuf`: append a byte at `next` if there is room,
otherwise overwrite slot 0 with `T_END` to mark the buffer invalid. -/
def addToBuf (s : DState) (ch : Nat) : DState :=
  if s.buffer.length ≤ s.next then { s with buffer := s.buffer.set 0 tEnd }
  else { s with buffer := s.buffer.set s.next ch, next := (s.next + 1) % 256 }

/-- `EmBdecode::reset`: `count = next; level = next = 0; state = EMB_ANY;
return count;`. -/
def resetD (s : DState) : DState × Nat :=
  ({ level := 0, buffer := s.buffer, count := s.next, next := 0, last := s.last,
     state := embAny }, s.next)

/-- The item-complete check after the `switch` in `EmBdecode::process`
(the code below the `// end of an item reached` comment): stay
mid-stream while `level > 0`, otherwise append `T_END` and reset. -/
def itemDone (s : DState) : DState × Nat :=
  if 0 < s.level then ({ s with state := embAny }, 0)
  else resetD (addToBuf s tEnd)

/-- The `EMB_LEN` case of `process` (also reached by fall-through from
`EMB_ANY` on a digit). -/
def procLEN (s : DState) (ch : Nat) : DState × Nat :=
  if ch = 58 then
    let s1 := addToBuf s ((tString + s.count) % 256)
    if s.count = 0 then itemDone (addToBuf s1 0)
    else ({ s1 with state := embStr }, 0)
  else ({ s with count := (10 * s.count + (ch - 48)) % 256 }, 0)

/-- `EmBdecode::process`: consume one wire byte, return the new state
and the `uint8_t` return value (0 = not yet complete, a positive count
when the buffer holds a complete packet). -/
def process (s : DState) (ch : Nat) : DState × Nat :=
  if s.state = embAny then
    if ch < 48 ∨ 57 < ch then
      if ch = 105 then ({ addToBuf s tNumber with state := embInt }, 0)
      else if ch = 100 ∨ ch = 108 then
        ({ addToBuf s (if ch = 100 then tDict else tList) with
           level := wrap8 (s.level + 1) }, 0)
      else if ch = 101 then
        itemDone { addToBuf s tPop with level := wrap8 (s.level - 1) }
      else (s, 0)
    else procLEN { s with state := embLen, count := 0 } ch
  else if s.state = embLen then procLEN s ch
  else if s.state = embStr then
    let s1 := addToBuf s ch
    let s2 := { s1 with count := (s1.count + 255) % 256 }
    if s2.count = 0 then itemDone (addToBuf s2 0) else (s2, 0)
  else
    if ch = 101 then itemDone (addToBuf s 0)
    else (addToBuf s ch, 0)

/-- Feed a sequence of wire bytes through `process`, collecting the
return values. -/
def processAll (s : DState) : List Nat → DState × List Nat
  | [] => (s, [])
  | c :: cs =>
    let r := process s c
    let q := processAll r.1 cs
    (q.1, r.2 :: q.2)

/-- The minimum value taken by the nesting counter `level` at the call
boundaries of a run of `process` (including the initial and final
states). -/
def minLev (s : DState) : List Nat → Int
  | [] => s.level
  | c :: cs => min s.level (minLev (process s c).1 cs)

/-! ## The token iterator -/

/-- The scan loop `while (buffer[next++] != 0) ;` of `nextToken` in the
`T_NUMBER` case.  The `uint8_t` cursor wraps modulo 256, so the loop
revisits at most 256 positions; fuel 256 therefore covers every
terminating C execution. -/
def scanZ (buf : List Nat) : Nat → Nat → Nat
  | 0, i => i
  | f + 1, i => if buf.getD i 0 = 0 then (i + 1) % 256 else scanZ buf f ((i + 1) % 256)

/-- `EmBdecode::nextToken`: read the tag byte at `next`, advance past
the token, return the token type (`T_STRING` for any tag below
`T_NUMBER`). -/
def nextToken (s : DState) : Nat × DState :=
  let ch := s.buffer.getD s.next 0
  let n1 := (s.next + 1) % 256
  if ch = tNumber then (tNumber, { s with next := scanZ s.buffer 256 n1, last := n1 })
  else if ch = tEnd then (tEnd, { s with next := (n1 + 255) % 256, last := n1 })
  else if ch = tDict ∨ ch = tList ∨ ch = tPop then (ch, { s with next := n1, last := n1 })
  else (tString, { s with next := (n1 + ch + 1) % 256, last := n1 })

/-- The length stored through `plen` by `EmBdecode::asString`:
`next - last - 1` as an `uint8_t`. -/
def asStringLen (s : DState) : Nat := (((s.next : Int) - s.last - 1) % 256).toNat

/-- The payload bytes referenced by the pointer `buffer + last` returned
by `asString`, of the length it reports. -/
def asStringBytes (s : DState) : List Nat := (s.buffer.drop s.last).take (asStringLen s)

/-- The zero-terminated C string starting at `buffer + i`. -/
def cString (buf : List Nat) : Nat → Nat → List Nat
  | 0, _ => []
  | f + 1, i =>
    let c := buf.getD i 0
    if c = 0 then [] else c :: cString buf f (i + 1)

/-- `EmBdecode::asNumber`: `atol(buffer + last)`. -/
def asNumber (s : DState) : Int := atolM (cString s.buffer s.buffer.length s.last)

/-! ## Walking a completed token stream

A caller reconstructs a structured value from the completed buffer by
repeated `nextToken` calls, reading payloads with `asString` and
`asNumber` (§2 of the spec).  `readTok` reads one value; `readItems`
reads list members up to the matching `T_POP`; `readPairs` reads
dictionary key/value pairs up to the matching `T_POP`. -/

mutual
/-- Read one structured value starting at the iterator cursor. -/
def readTok : Nat → DState → Option (BVal × DState)
  | 0, _ => none
  | f + 1, s =>
    let ts := nextToken s
    if ts.1 = tNumber then some (.intg (asNumber ts.2), ts.2)
    else if ts.1 = tDict then (readPairs f ts.2).map (fun r => (.dict r.1, r.2))
    else if ts.1 = tList then (readItems f ts.2).map (fun r => (.list r.1, r.2))
    else if ts.1 = tPop ∨ ts.1 = tEnd then none
    else some (.str (asStringBytes ts.2), ts.2)
/-- Read list members until the matching `T_POP`. -/
def readItems : Nat → DState → Option (BList × DState)
  | 0, _ => none
  | f + 1, s =>
    if (nextToken s).1 = tPop then some (.nil, (nextToken s).2)
    else
      (readTok f s).bind fun r =>
        (readItems f r.2).map fun q => (.cons r.1 q.1, q.2)
/-- Read dictionary key/value pairs until the matching `T_POP`; a key
is read as a string token via `nextToken`/`asString`. -/
def readPairs : Nat → DState → Option (BPairs × DState)
  | 0, _ => none
  | f + 1, s =>
    if (nextToken s).1 = tPop then some (.nil, (nextToken s).2)
    else if (nextToken s).1 = tString then
      let ks := nextToken s
      (readTok f ks.2).bind fun r =>
        (readPairs f r.2).map fun q => (.cons (asStringBytes ks.2) r.1 q.1, q.2)
    else none
end

/-! ## The linearized token stream

The byte sequence that `process` appends to the decode buffer for each
wire construct: a length tag, payload and zero terminator for a string;
`T_NUMBER`, the integer text and a zero terminator for a number;
`T_DICT`/`T_LIST` ... `T_POP` around containers. -/

/-- Buffer bytes appended while decoding the wire form of the byte
string `b`. -/
def tokensStr (b : List Nat) : List Nat := b.length :: (b ++ [0])

mutual
/-- Buffer bytes appended while decoding the wire form of a value. -/
def tokensV : BVal → List Nat
  | .str b => tokensStr b
  | .intg n => tNumber :: (intText n ++ [0])
  | .list xs => tList :: (tokensL xs ++ [tPop])
  | .dict ps => tDict :: (tokensP ps ++ [tPop])
def tokensL : BList → List Nat
  | .nil => []
  | .cons v tl => tokensV v ++ tokensL tl
def tokensP : BPairs → List Nat
  | .nil => []
  | .cons k v tl => tokensStr k ++ tokensV v ++ tokensP tl
end

mutual
/-- The value of the decoder's `count` field after the tokens of a value
have been consumed, given its value before (a string parse ends with
`count = 0`; an integer parse leaves `count` untouched). -/
def afterCount : BVal → Nat → Nat
  | .str _, _ => 0
  | .intg _, c => c
  | .list xs, c => afterCountL xs c
  | .dict ps, c => afterCountP ps c
def afterCountL : BList → Nat → Nat
  | .nil, c => c
  | .cons v tl, c => afterCountL tl (afterCount v c)
def afterCountP : BPairs → Nat → Nat
  | .nil, c => c
  | .cons _ v tl, _ => afterCountP tl (afterCount v 0)
end

mutual
/-- Fuel needed by `readTok` to walk the token stream of a value. -/
def fuelV : BVal → Nat
  | .str _ => 1
  | .intg _ => 1
  | .list xs => 1 + fuelL xs
  | .dict ps => 1 + fuelP ps
def fuelL : BList → Nat
  | .nil => 1
  | .cons v tl => 1 + max (fuelV v) (fuelL tl)
def fuelP : BPairs → Nat
  | .nil => 1
  | .cons _ v tl => 1 + max (fuelV v) (fuelP tl)
end

/-! ## Block writes into the fixed buffer -/

/-- Write the bytes of `l` into `buf` starting at index `i` (successive
`List.set` updates, as successive in-range `AddToBuf` calls perform). -/
def writeBlock (buf : List Nat) (i : Nat) : List Nat → List Nat
  | [] => buf
  | c :: cs => writeBlock (buf.set i c) (i + 1) cs

/-- `buf` holds the byte sequence `l` starting at position `p`. -/
def SegAt (buf : List Nat) (p : Nat) (l : List Nat) : Prop :=
  ∀ k, k < l.length → buf.getD (p + k) 0 = l.getD k 0

instance (buf : List Nat) (p : Nat) (l : List Nat) : Decidable (SegAt buf p l) :=
  inferInstanceAs (Decidable (∀ k, k < l.length → buf.getD (p + k) 0 = l.getD k 0))

theorem writeBlock_length (l : List Nat) : ∀ (buf : List Nat) (i : Nat),
    (writeBlock buf i l).length = buf.length := by
  induction l with
  | nil => intro buf i; rfl
  | cons c cs ih => intro buf i; simp [writeBlock, ih]

theorem writeBlock_append (a b : List Nat) : ∀ (buf : List Nat) (i : Nat),
    writeBlock buf i (a ++ b) = writeBlock (writeBlock buf i a) (i + a.length) b := by
  induction a with
  | nil => intro buf i; simp [writeBlock]
  | cons c cs ih =>
    intro buf i
    simp only [List.cons_append, writeBlock, List.length_cons, List.append_eq, ih]
    rw [(by omega : i + (cs.length + 1) = (i + 1) + cs.length)]

theorem writeBlock_getD_lt (l : List Nat) : ∀ (buf : List Nat) (i j : Nat), j < i →
    (writeBlock buf i l).getD j 0 = buf.getD j 0 := by
  induction l with
  | nil => intro buf i j _; rfl
  | cons c cs ih =>
    intro buf i j hj
    rw [writeBlock, ih _ _ _ (by omega)]
    rw [List.getD_eq_getElem?_getD, List.getD_eq_getElem?_getD, List.getElem?_set,
      if_neg (by omega : ¬ i = j)]

theorem writeBlock_seg (l : List Nat) : ∀ (buf : List Nat) (i : Nat),
    i + l.length ≤ buf.length → SegAt (writeBlock buf i l) i l := by
  induction l with
  | nil => intro buf i _ k hk; simp at hk
  | cons c cs ih =>
    intro buf i hroom k hk
    cases k with
    | zero =>
      rw [writeBlock, writeBlock_getD_lt _ _ _ _ (by omega)]
      simp only [Nat.add_zero, List.getD_cons_zero]
      have hlt : i < buf.length := by simp at hroom; omega
      simp [List.getD_eq_getElem?_getD, List.getElem?_set, hlt]
    | succ k =>
      rw [writeBlock]
      have h2 := ih (buf.set i c) (i + 1) (by simp at hroom ⊢; omega) k
        (by simp at hk; omega)
      rw [List.getD_cons_succ]
      rw [(by omega : i + (k + 1) = (i + 1) + k)]
      exact h2

/-- A stored segment restricted to a prefix. -/
theorem SegAt.prefixSeg {buf : List Nat} {p : Nat} {a b : List Nat}
    (h : SegAt buf p (a ++ b)) : SegAt buf p a := by
  intro k hk
  have := h k (by simp; omega)
  rwa [List.getD_append _ _ _ _ hk] at this

/-- A stored segment restricted to its suffix. -/
theorem SegAt.suffixSeg {buf : List Nat} {p : Nat} {a b : List Nat}
    (h : SegAt buf p (a ++ b)) : SegAt buf (p + a.length) b := by
  intro k hk
  have := h (a.length + k) (by simp; omega)
  rw [List.getD_append_right _ _ _ _ (by omega)] at this
  simpa [Nat.add_assoc, Nat.add_sub_cancel_left] using this

/-- Reading a stored segment back out of the buffer. -/
theorem SegAt.extract {buf : List Nat} {p : Nat} {l : List Nat}
    (h : SegAt buf p l) (hroom : p + l.length ≤ buf.length) :
    (buf.drop p).take l.length = l := by
  apply List.ext_getElem
  · simp; omega
  · intro k h1 h2
    have hk : k < l.length := by simpa using h2
    have := h k hk
    rw [List.getD_eq_getElem?_getD, List.getD_eq_getElem?_getD] at this
    rw [List.getElem?_eq_getElem (by omega : p + k < buf.length)] at this
    rw [List.getElem?_eq_getElem hk] at this
    simp only [Option.getD_some] at this
    simp only [List.getElem_take, List.getElem_drop]
    exact this

/-! ## Branch characterizations of `process` -/

theorem wrap8_id {x : Int} (h1 : -128 ≤ x) (h2 : x ≤ 127) : wrap8 x = x := by
  unfold wrap8; omega

theorem addToBuf_ok (s : DState) (ch : Nat) (h : s.next < s.buffer.length)
    (hbl : s.buffer.length ≤ 255) :
    addToBuf s ch = { s with buffer := s.buffer.set s.next ch, next := s.next + 1 } := by
  unfold addToBuf
  rw [if_neg (by omega), Nat.mod_eq_of_lt (by omega)]

theorem addToBuf_full (s : DState) (ch : Nat) (h : s.buffer.length ≤ s.next) :
    addToBuf s ch = { s with buffer := s.buffer.set 0 tEnd } := by
  unfold addToBuf
  rw [if_pos h]

theorem itemDone_pos (s : DState) (h : 0 < s.level) :
    itemDone s = ({ s with state := embAny }, 0) := by
  unfold itemDone
  rw [if_pos h]

theorem itemDone_done (s : DState) (h : s.level ≤ 0) :
    itemDone s = resetD (addToBuf s tEnd) := by
  unfold itemDone
  rw [if_neg (by omega)]

theorem process_any_digit (s : DState) (ch : Nat) (hst : s.state = embAny)
    (h1 : 48 ≤ ch) (h2 : ch ≤ 57) :
    process s ch = ({ s with state := embLen, count := (ch - 48) % 256 }, 0) := by
  unfold process
  rw [if_pos hst, if_neg (by omega)]
  unfold procLEN
  rw [if_neg (by omega)]
  simp

theorem process_any_i (s : DState) (hst : s.state = embAny) :
    process s 105 = ({ addToBuf s tNumber with state := embInt }, 0) := by
  unfold process
  rw [if_pos hst, if_pos (by norm_num), if_pos rfl]

theorem process_any_open (s : DState) (ch : Nat) (hst : s.state = embAny)
    (h : ch = 100 ∨ ch = 108) :
    process s ch = ({ addToBuf s (if ch = 100 then tDict else tList) with
      level := wrap8 (s.level + 1) }, 0) := by
  unfold process
  rw [if_pos hst, if_pos (by omega), if_neg (by omega), if_pos h]

theorem process_any_pop (s : DState) (hst : s.state = embAny) :
    process s 101 = itemDone { addToBuf s tPop with level := wrap8 (s.level - 1) } := by
  unfold process
  rw [if_pos hst, if_pos (by norm_num), if_neg (by norm_num), if_neg (by norm_num),
    if_pos rfl]

theorem process_len_digit (s : DState) (ch : Nat) (hst : s.state = embLen)
    (hne : ch ≠ 58) :
    process s ch = ({ s with count := (10 * s.count + (ch - 48)) % 256 }, 0) := by
  unfold process
  rw [if_neg (by rw [hst]; unfold embLen embAny; omega), if_pos hst]
  unfold procLEN
  rw [if_neg hne]

theorem process_len_colon (s : DState) (hst : s.state = embLen) (hc : s.count ≠ 0) :
    process s 58 = ({ addToBuf s ((tString + s.count) % 256) with state := embStr }, 0) := by
  unfold process
  rw [if_neg (by rw [hst]; unfold embLen embAny; omega), if_pos hst]
  unfold procLEN
  rw [if_pos rfl]
  simp [hc]

theorem process_len_colon_empty (s : DState) (hst : s.state = embLen) (hc : s.count = 0) :
    process s 58 = itemDone (addToBuf (addToBuf s ((tString + s.count) % 256)) 0) := by
  unfold process
  rw [if_neg (by rw [hst]; unfold embLen embAny; omega), if_pos hst]
  unfold procLEN
  rw [if_pos rfl]
  simp [hc]

theorem process_str_mid (s : DState) (ch : Nat) (hst : s.state = embStr)
    (h1 : 2 ≤ s.count) (h2 : s.count ≤ 255) :
    process s ch = ({ addToBuf s ch with count := s.count - 1 }, 0) := by
  unfold process
  rw [if_neg (by rw [hst]; unfold embStr embAny; omega),
    if_neg (by rw [hst]; unfold embStr embLen; omega), if_pos hst]
  have hcnt : (addToBuf s ch).count = s.count := by
    unfold addToBuf; split <;> rfl
  simp only [hcnt]
  have hmod : (s.count + 255) % 256 = s.count - 1 := by omega
  simp only [hmod]
  rw [if_neg (by omega : ¬ (s.count - 1 = 0))]

theorem process_str_last (s : DState) (ch : Nat) (hst : s.state = embStr)
    (h1 : s.count = 1) :
    process s ch = itemDone (addToBuf { addToBuf s ch with count := 0 } 0) := by
  unfold process
  rw [if_neg (by rw [hst]; unfold embStr embAny; omega),
    if_neg (by rw [hst]; unfold embStr embLen; omega), if_pos hst]
  have hcnt : (addToBuf s ch).count = s.count := by
    unfold addToBuf; split <;> rfl
  simp only [hcnt, h1]
  norm_num

theorem process_int_e (s : DState) (hst : s.state = embInt) :
    process s 101 = itemDone (addToBuf s 0) := by
  unfold process
  rw [if_neg (by rw [hst]; unfold embInt embAny; omega),
    if_neg (by rw [hst]; unfold embInt embLen; omega),
    if_neg (by rw [hst]; unfold embInt embStr; omega), if_pos rfl]

theorem process_int_ch (s : DState) (ch : Nat) (hst : s.state = embInt)
    (hne : ch ≠ 101) :
    process s ch = (addToBuf s ch, 0) := by
  unfold process
  rw [if_neg (by rw [hst]; unfold embInt embAny; omega),
    if_neg (by rw [hst]; unfold embInt embLen; omega),
    if_neg (by rw [hst]; unfold embInt embStr; omega), if_neg hne]

/-! ## Composition lemmas for `processAll` and `minLev` -/

theorem processAll_append (a b : List Nat) : ∀ s : DState,
    processAll s (a ++ b)
      = ((processAll (processAll s a).1 b).1,
         (processAll s a).2 ++ (processAll (processAll s a).1 b).2) := by
  induction a with
  | nil => intro s; simp [processAll]
  | cons c cs ih => intro s; simp [processAll, ih]

theorem minLev_append (a b : List Nat) : ∀ s : DState,
    minLev s (a ++ b) = min (minLev s a) (minLev (processAll s a).1 b) := by
  induction a with
  | nil =>
    intro s
    simp only [List.nil_append, processAll]
    cases b with
    | nil => simp [minLev]
    | cons c cs =>
      simp only [minLev]
      omega
  | cons c cs ih =>
    intro s
    simp only [List.cons_append, minLev, processAll, List.append_eq, ih]
    omega

theorem replicate_zero_append (n m : Nat) :
    List.replicate n (0 : Nat) ++ List.replicate m 0 = List.replicate (n + m) 0 := by
  rw [← List.replicate_add]

/-! ## Processing whole scalar items -/

/-- The completion check does not depend on the parse state field. -/
theorem itemDone_state (s : DState) (x : Nat) :
    itemDone { s with state := x } = itemDone s := by
  unfold itemDone resetD addToBuf
  by_cases h : 0 < s.level
  · rw [if_pos h, if_pos h]
  · rw [if_neg h, if_neg h]
    by_cases h2 : s.buffer.length ≤ s.next
    · rw [if_pos h2, if_pos h2]
    · rw [if_neg h2, if_neg h2]

theorem processAll_len_digits (l : List Nat) : ∀ s : DState, s.state = embLen →
    (∀ c ∈ l, 48 ≤ c ∧ c ≤ 57) →
    processAll s l
      = ({ s with count := List.foldl (fun a c => (10 * a + (c - 48)) % 256) s.count l },
         List.replicate l.length 0)
      ∧ minLev s l = s.level := by
  induction l with
  | nil => intro s hst _; exact ⟨rfl, rfl⟩
  | cons c cs ih =>
    intro s hst hdig
    have hc := hdig c (by simp)
    have hstep := process_len_digit s c hst (by omega)
    obtain ⟨ih1, ih2⟩ := ih { s with count := (10 * s.count + (c - 48)) % 256 } hst
      (fun x hx => hdig x (by simp [hx]))
    constructor
    · simp only [processAll, hstep, ih1, List.foldl_cons, List.length_cons,
        List.replicate_succ]
    · simp only [minLev, hstep, ih2, min_self]

theorem processAll_header (n : Nat) (s : DState) (hst : s.state = embAny) :
    processAll s (decChars n)
      = ({ s with state := embLen, count := n % 256 },
         List.replicate (decChars n).length 0)
      ∧ minLev s (decChars n) = s.level := by
  cases hl : decChars n with
  | nil => exact absurd hl (decChars_ne_nil n)
  | cons c0 rest =>
    have hc0 : 48 ≤ c0 ∧ c0 ≤ 57 := mem_decChars (by rw [hl]; simp)
    have hrest : ∀ c ∈ rest, 48 ≤ c ∧ c ≤ 57 :=
      fun c hc => mem_decChars (by rw [hl]; simp [hc])
    have hstep := process_any_digit s c0 hst hc0.1 hc0.2
    obtain ⟨ih1, ih2⟩ := processAll_len_digits rest
      { s with state := embLen, count := (c0 - 48) % 256 } rfl hrest
    have hcnt : List.foldl (fun a c => (10 * a + (c - 48)) % 256) ((c0 - 48) % 256) rest
        = n % 256 := by
      have := count_decChars n
      rw [hl, List.foldl_cons] at this
      simpa using this
    constructor
    · simp only [processAll, hstep, ih1, hcnt, List.length_cons, List.replicate_succ]
    · simp only [minLev, hstep, ih2, min_self]

theorem processAll_payload (b : List Nat) : ∀ s : DState, s.state = embStr →
    b.length + 1 ≤ s.count → s.count ≤ 255 →
    s.next + b.length ≤ s.buffer.length → s.buffer.length ≤ 255 →
    processAll s b
      = ({ s with
           buffer := writeBlock s.buffer s.next b
           next := s.next + b.length
           count := s.count - b.length }, List.replicate b.length 0)
      ∧ minLev s b = s.level := by
  induction b with
  | nil =>
    intro s hst _ _ _ _
    refine ⟨?_, rfl⟩
    show (s, []) = _
    simp [writeBlock]
  | cons c cs ih =>
    intro s hst hcount hcmax hroom hbl
    simp only [List.length_cons] at hcount hroom
    have hstep := process_str_mid s c hst (by omega) hcmax
    rw [addToBuf_ok s c (by omega) hbl] at hstep
    obtain ⟨ih1, ih2⟩ := ih
      { s with buffer := s.buffer.set s.next c, next := s.next + 1, count := s.count - 1 }
      hst (by simp; omega) (by simp; omega) (by simp [List.length_set]; omega)
      (by simp [List.length_set]; omega)
    constructor
    · simp only [processAll, hstep, ih1, List.length_cons, List.replicate_succ]
      refine congrArg (fun x => (x, _)) ?_
      show ({ s with
          buffer := writeBlock (s.buffer.set s.next c) (s.next + 1) cs
          next := s.next + 1 + cs.length
          count := s.count - 1 - cs.length } : DState) = _
      rw [(by omega : s.next + 1 + cs.length = s.next + (cs.length + 1)),
        (by omega : s.count - 1 - cs.length = s.count - (cs.length + 1))]
      rfl
    · simp only [minLev, hstep, ih2, min_self]

theorem processAll_int_body (t : List Nat) : ∀ s : DState, s.state = embInt →
    (∀ c ∈ t, c ≠ 101) →
    s.next + t.length ≤ s.buffer.length → s.buffer.length ≤ 255 →
    processAll s t
      = ({ s with buffer := writeBlock s.buffer s.next t, next := s.next + t.length },
         List.replicate t.length 0)
      ∧ minLev s t = s.level := by
  induction t with
  | nil =>
    intro s hst _ _ _
    refine ⟨?_, rfl⟩
    show (s, []) = _
    simp [writeBlock]
  | cons c cs ih =>
    intro s hst hne hroom hbl
    simp only [List.length_cons] at hroom
    have hstep := process_int_ch s c hst (hne c (by simp))
    rw [addToBuf_ok s c (by omega) hbl] at hstep
    obtain ⟨ih1, ih2⟩ := ih { s with buffer := s.buffer.set s.next c, next := s.next + 1 }
      hst (fun x hx => hne x (by simp [hx]))
      (by simp [List.length_set]; omega) (by simp [List.length_set]; omega)
    constructor
    · simp only [processAll, hstep, ih1, List.length_cons, List.replicate_succ]
      refine congrArg (fun x => (x, _)) ?_
      show ({ s with
          buffer := writeBlock (s.buffer.set s.next c) (s.next + 1) cs
          next := s.next + 1 + cs.length } : DState) = _
      rw [(by omega : s.next + 1 + cs.length = s.next + (cs.length + 1))]
      rfl
    · simp only [minLev, hstep, ih2, min_self]


/-- Processing the wire form of a byte string from the idle state: the
decoder writes the length tag, the payload and the terminator, then runs
the item-complete check. -/
theorem processAll_string (b : List Nat) (s : DState) (hst : s.state = embAny)
    (hlen : b.length ≤ 250)
    (hroom : s.next + (b.length + 2) ≤ s.buffer.length) (hbl : s.buffer.length ≤ 255) :
    processAll s (pushStrB b)
      = ((itemDone { s with
            buffer := writeBlock s.buffer s.next (tokensStr b)
            next := s.next + (b.length + 2)
            count := 0 }).1,
         List.replicate ((pushStrB b).length - 1) 0
           ++ [(itemDone { s with
                  buffer := writeBlock s.buffer s.next (tokensStr b)
                  next := s.next + (b.length + 2)
                  count := 0 }).2])
      ∧ minLev s (pushStrB b)
        = min s.level (itemDone { s with
            buffer := writeBlock s.buffer s.next (tokensStr b)
            next := s.next + (b.length + 2)
            count := 0 }).1.level := by
  cases b with
  | nil =>
    have hwire : pushStrB ([] : List Nat) = [48, 58] := by
      simp [pushStrB, decChars]
    have hnext : s.next < s.buffer.length := by simp at hroom; omega
    have hs1 := process_any_digit s 48 hst (by norm_num) (by norm_num)
    norm_num at hs1
    have hs2 := process_len_colon_empty { s with state := embLen, count := 0 } rfl rfl
    norm_num [tString] at hs2
    have ha1 := addToBuf_ok { s with state := embLen, count := 0 } 0
      (by simpa using hnext) (by simpa using hbl)
    simp only at ha1
    rw [ha1] at hs2
    have ha2 := addToBuf_ok { s with
      state := embLen
      count := 0
      buffer := s.buffer.set s.next 0
      next := s.next + 1 } 0
      (by simp [List.length_set]; omega) (by simp [List.length_set]; omega)
    simp only at ha2
    rw [ha2] at hs2
    have hmid : ({ s with
        state := embLen
        count := 0
        buffer := (s.buffer.set s.next 0).set (s.next + 1) 0
        next := s.next + 1 + 1 } : DState)
        = { ({ s with
             buffer := writeBlock s.buffer s.next (tokensStr [])
             next := s.next + (([] : List Nat).length + 2)
             count := 0 } : DState) with state := embLen } := by
      show ({ s with
          state := embLen
          count := 0
          buffer := (s.buffer.set s.next 0).set (s.next + 1) 0
          next := s.next + 1 + 1 } : DState) = _
      norm_num [tokensStr, writeBlock]
    rw [hmid, itemDone_state] at hs2
    rw [hwire]
    constructor
    · simp only [processAll, hs1, hs2]
      rfl
    · simp only [minLev, hs1, hs2]
      omega
  | cons c cs =>
    set bb : List Nat := c :: cs with hbb
    have hblen : bb.length = cs.length + 1 := by simp [hbb]
    have hbne : bb ≠ [] := by simp [hbb]
    have hmod : bb.length % 256 = bb.length := Nat.mod_eq_of_lt (by omega)
    obtain ⟨hh1, hh2⟩ := processAll_header bb.length s hst
    unfold pushStrB
    rw [processAll_append, minLev_append, hh1, hh2]
    have hs1 : ({ s with state := embLen, count := bb.length % 256 } : DState)
        = { s with state := embLen, count := bb.length } := by rw [hmod]
    rw [hs1]
    have hcolon := process_len_colon { s with state := embLen, count := bb.length } rfl
      (by simp [hbb])
    rw [addToBuf_ok _ _ (by simpa using by omega) (by simpa using hbl)] at hcolon
    simp only at hcolon
    have htag : (tString + bb.length) % 256 = bb.length := by
      unfold tString
      omega
    rw [htag] at hcolon
    set s2 : DState := { s with
      state := embStr
      count := bb.length
      buffer := s.buffer.set s.next bb.length
      next := s.next + 1 } with hs2
    have hcolon2 : process { s with state := embLen, count := bb.length } 58 = (s2, 0) := by
      rw [hcolon]
    have hlast : bb.dropLast ++ [bb.getLast hbne] = bb :=
      List.dropLast_append_getLast _
    have hdlen : bb.dropLast.length = cs.length := by simp [hbb]
    obtain ⟨hp1, hp2⟩ := processAll_payload bb.dropLast s2 rfl
      (by simp [hs2, hdlen, hblen]) (by simp [hs2, hblen]; omega)
      (by simp [hs2, List.length_set, hdlen]; omega)
      (by simp [hs2, List.length_set]; omega)
    set s3 : DState := { s2 with
      buffer := writeBlock s2.buffer s2.next bb.dropLast
      next := s2.next + bb.dropLast.length
      count := s2.count - bb.dropLast.length } with hs3
    have hcount3 : s3.count = 1 := by simp [hs3, hs2, hdlen, hblen]
    have hlen3 : s3.buffer.length = s.buffer.length := by
      simp [hs3, hs2, writeBlock_length, List.length_set]
    have hnext3 : s3.next = s.next + 1 + cs.length := by simp [hs3, hs2, hdlen]
    have hstep := process_str_last s3 (bb.getLast hbne) rfl hcount3
    rw [addToBuf_ok s3 _ (by rw [hlen3, hnext3]; omega) (by rw [hlen3]; omega)] at hstep
    simp only at hstep
    rw [addToBuf_ok _ _ (by simp [List.length_set, hlen3, hnext3]; omega)
      (by simp [List.length_set, hlen3]; omega)] at hstep
    simp only at hstep
    have hsplit : (bb ++ [0] : List Nat) = bb.dropLast ++ ([bb.getLast hbne] ++ [0]) := by
      rw [← List.append_assoc, hlast]
    have htok : tokensStr bb
        = [bb.length] ++ (bb.dropLast ++ ([bb.getLast hbne] ++ [0])) := by
      unfold tokensStr
      rw [hsplit]
      rfl
    have hw : writeBlock s.buffer s.next (tokensStr bb)
        = ((writeBlock (s.buffer.set s.next bb.length) (s.next + 1)
            bb.dropLast).set (s.next + 1 + cs.length) (bb.getLast hbne)).set
            (s.next + 1 + cs.length + 1) 0 := by
      rw [htok, writeBlock_append, writeBlock_append, writeBlock_append]
      simp [writeBlock, hdlen]
    have hmid : ({ s3 with
        buffer := (s3.buffer.set s3.next (bb.getLast hbne)).set (s3.next + 1) 0
        count := 0
        next := s3.next + 1 + 1 } : DState)
        = { ({ s with
             buffer := writeBlock s.buffer s.next (tokensStr bb)
             next := s.next + (bb.length + 2)
             count := 0 } : DState) with state := embStr } := by
      simp only [hs3, hs2]
      simp only [hdlen]
      show ({ s with
          state := embStr
          count := 0
          buffer := ((writeBlock (s.buffer.set s.next bb.length) (s.next + 1)
            bb.dropLast).set (s.next + 1 + cs.length)
            (bb.getLast hbne)).set (s.next + 1 + cs.length + 1) 0
          next := s.next + 1 + cs.length + 1 + 1 } : DState) = _
      rw [← hw]
      have hnx : s.next + 1 + cs.length + 1 + 1 = s.next + (bb.length + 2) := by
        rw [hblen]
        omega
      rw [hnx]
    rw [hmid, itemDone_state] at hstep
    have hsplitwire : (58 :: bb : List Nat)
        = 58 :: (bb.dropLast ++ [bb.getLast hbne]) := by rw [hlast]
    constructor
    · conv_lhs => rw [hsplitwire]
      simp only [processAll, hcolon2]
      rw [processAll_append, hp1]
      simp only [processAll, hstep]
      refine congrArg (fun x => (_, x)) ?_
      have hplen : (decChars bb.length ++ 58 :: bb).length - 1
          = (decChars bb.length).length + (bb.dropLast.length + 1) := by
        simp [hdlen, hblen]
      rw [hplen, ← replicate_zero_append, List.replicate_succ]
      simp
    · conv_lhs => rw [hsplitwire]
      simp only [minLev, hcolon2]
      rw [minLev_append, hp2, hp1]
      simp only [minLev, hstep]
      have hsl2 : s2.level = s.level := by simp [hs2]
      have hsl3 : s3.level = s.level := by simp [hs3, hs2]
      rw [hsl2, hsl3]
      omega

/-- Processing the wire form of an integer from the idle state: the
decoder writes the `T_NUMBER` tag, the integer text verbatim and the
terminator, then runs the item-complete check. -/
theorem processAll_int (n : Int) (s : DState) (hst : s.state = embAny)
    (hroom : s.next + ((intText n).length + 2) ≤ s.buffer.length)
    (hbl : s.buffer.length ≤ 255) :
    processAll s (pushLongB n)
      = ((itemDone { s with
            buffer := writeBlock s.buffer s.next (tNumber :: (intText n ++ [0]))
            next := s.next + ((intText n).length + 2) }).1,
         List.replicate ((pushLongB n).length - 1) 0
           ++ [(itemDone { s with
                  buffer := writeBlock s.buffer s.next (tNumber :: (intText n ++ [0]))
                  next := s.next + ((intText n).length + 2) }).2])
      ∧ minLev s (pushLongB n)
        = min s.level (itemDone { s with
            buffer := writeBlock s.buffer s.next (tNumber :: (intText n ++ [0]))
            next := s.next + ((intText n).length + 2) }).1.level := by
  have hnext : s.next < s.buffer.length := by omega
  have hs1 := process_any_i s hst
  rw [addToBuf_ok s tNumber hnext hbl] at hs1
  simp only at hs1
  obtain ⟨hb1, hb2⟩ := processAll_int_body (intText n)
    { s with
      buffer := s.buffer.set s.next tNumber
      next := s.next + 1
      state := embInt } rfl
    (fun c hc => intText_ne_e hc)
    (by simp [List.length_set]; omega) (by simp [List.length_set]; omega)
  simp only at hb1 hb2
  set s2 : DState := { s with
    buffer := writeBlock (s.buffer.set s.next tNumber) (s.next + 1) (intText n)
    next := s.next + 1 + (intText n).length
    state := embInt } with hs2
  have hlen2 : s2.buffer.length = s.buffer.length := by
    simp [hs2, writeBlock_length, List.length_set]
  have hstep := process_int_e s2 rfl
  rw [addToBuf_ok s2 0 (by rw [hlen2]; simp [hs2]; omega) (by rw [hlen2]; omega)] at hstep
  simp only at hstep
  have hw : writeBlock s.buffer s.next (tNumber :: (intText n ++ [0]))
      = (writeBlock (s.buffer.set s.next tNumber) (s.next + 1)
          (intText n)).set (s.next + 1 + (intText n).length) 0 := by
    show writeBlock s.buffer s.next ([tNumber] ++ (intText n ++ [0])) = _
    rw [writeBlock_append, writeBlock_append]
    simp [writeBlock]
  have hmid : ({ s2 with
      buffer := s2.buffer.set s2.next 0
      next := s2.next + 1 } : DState)
      = { ({ s with
           buffer := writeBlock s.buffer s.next (tNumber :: (intText n ++ [0]))
           next := s.next + ((intText n).length + 2) } : DState) with state := embInt } := by
    simp only [hs2]
    show ({ s with
        state := embInt
        buffer := (writeBlock (s.buffer.set s.next tNumber) (s.next + 1)
          (intText n)).set (s.next + 1 + (intText n).length) 0
        next := s.next + 1 + (intText n).length + 1 } : DState) = _
    rw [← hw, (by omega : s.next + 1 + (intText n).length + 1
      = s.next + ((intText n).length + 2))]
  rw [hmid, itemDone_state] at hstep
  constructor
  · show processAll s (105 :: (intText n ++ [101])) = _
    simp only [processAll, hs1]
    rw [processAll_append, hb1]
    simp only [processAll, hstep]
    refine congrArg (fun x => (_, x)) ?_
    have hplen : (pushLongB n).length - 1 = (intText n).length + 1 := by
      simp [pushLongB]
    rw [hplen, List.replicate_succ]
    simp
  · show minLev s (105 :: (intText n ++ [101])) = _
    simp only [minLev, hs1]
    rw [minLev_append, hb2, hb1]
    simp only [minLev, hstep]
    have hsl2 : s2.level = s.level := by simp [hs2]
    rw [hsl2]
    omega

theorem replicate_snoc_zero (n : Nat) (h : 1 ≤ n) :
    List.replicate (n - 1) (0 : Nat) ++ [0] = List.replicate n 0 := by
  rw [← List.replicate_succ']
  congr 1
  omega

theorem pushStrB_len_pos (b : List Nat) : 1 ≤ (pushStrB b).length := by
  simp [pushStrB]
  omega

theorem pushLongB_len_pos (n : Int) : 1 ≤ (pushLongB n).length := by
  simp [pushLongB]

theorem tokensStr_length (b : List Nat) : (tokensStr b).length = b.length + 2 := by
  simp [tokensStr]

/-! ## Processing the encoding of a nested value

The central induction: feeding the wire encoding of a representable
value to `process` from the idle state, while at least one container is
open (`level ≥ 1`), appends exactly the value's token-stream bytes,
returns 0 at every byte, and leaves `level` untouched (never dipping
below its initial value). -/

mutual
theorem procV (v : BVal) : ∀ s : DState, goodV v = true → s.state = embAny →
    1 ≤ s.level → s.level + (depthV v : Int) ≤ 127 →
    s.next + (tokensV v).length ≤ s.buffer.length → s.buffer.length ≤ 255 →
    processAll s (encodeVal v)
      = ({ s with
           buffer := writeBlock s.buffer s.next (tokensV v)
           count := afterCount v s.count
           next := s.next + (tokensV v).length
           state := embAny }, List.replicate (encodeVal v).length 0)
      ∧ minLev s (encodeVal v) = s.level := by
  cases v with
  | str b =>
    intro s hg hst hlev hdep hroom hbl
    have hlen : b.length ≤ 250 := by
      simp [goodV] at hg
      exact hg.1
    have htl : (tokensV (BVal.str b)).length = b.length + 2 := by
      simp [tokensV, tokensStr]
    rw [htl] at hroom
    obtain ⟨h1, h2⟩ := processAll_string b s hst hlen hroom hbl
    have hid := itemDone_pos { s with
        buffer := writeBlock s.buffer s.next (tokensStr b)
        next := s.next + (b.length + 2)
        count := 0 } (by simpa using hlev)
    constructor
    · show processAll s (pushStrB b) = _
      rw [h1, hid]
      refine Prod.ext ?_ ?_
      · simp [tokensV, afterCount, tokensStr_length]
      · show List.replicate ((pushStrB b).length - 1) 0 ++ [0] = _
        rw [replicate_snoc_zero _ (pushStrB_len_pos b)]
        rfl
    · show minLev s (pushStrB b) = s.level
      rw [h2, hid]
      simp
  | intg n =>
    intro s hg hst hlev hdep hroom hbl
    have htl : (tokensV (BVal.intg n)).length = (intText n).length + 2 := by
      simp [tokensV]
    rw [htl] at hroom
    obtain ⟨h1, h2⟩ := processAll_int n s hst hroom hbl
    have hid := itemDone_pos { s with
        buffer := writeBlock s.buffer s.next (tNumber :: (intText n ++ [0]))
        next := s.next + ((intText n).length + 2) } (by simpa using hlev)
    constructor
    · show processAll s (pushLongB n) = _
      rw [h1, hid]
      refine Prod.ext ?_ ?_
      · simp [tokensV, afterCount]
      · show List.replicate ((pushLongB n).length - 1) 0 ++ [0] = _
        rw [replicate_snoc_zero _ (pushLongB_len_pos n)]
        rfl
    · show minLev s (pushLongB n) = s.level
      rw [h2, hid]
      simp
  | list xs =>
    intro s hg hst hlev hdep hroom hbl
    have hgx : goodL xs = true := by simpa [goodV] using hg
    have hdx : s.level + 1 + (depthL xs : Int) ≤ 127 := by
      have : (depthV (BVal.list xs) : Int) = 1 + (depthL xs : Int) := by
        simp [depthV]
      omega
    have htl : (tokensV (BVal.list xs)).length = (tokensL xs).length + 2 := by
      simp [tokensV]
    rw [htl] at hroom
    have hnext : s.next < s.buffer.length := by omega
    -- the opening 'l'
    have hopen := process_any_open s 108 hst (Or.inr rfl)
    rw [addToBuf_ok s _ hnext hbl] at hopen
    simp only at hopen
    rw [if_neg (by norm_num)] at hopen
    rw [wrap8_id (by omega) (by omega)] at hopen
    -- the members
    obtain ⟨hm1, hm2⟩ := procL xs { s with
      buffer := s.buffer.set s.next tList
      next := s.next + 1
      level := s.level + 1 } (by simpa using hgx) (by simpa using hst)
      (by simp; omega) (by simpa using hdx)
      (by simp [List.length_set]; omega) (by simp [List.length_set]; omega)
    simp only at hm1 hm2
    set s2 : DState := { s with
      level := s.level + 1
      buffer := writeBlock (s.buffer.set s.next tList) (s.next + 1) (tokensL xs)
      count := afterCountL xs s.count
      next := s.next + 1 + (tokensL xs).length
      state := embAny } with hs2
    have hlen2 : s2.buffer.length = s.buffer.length := by
      simp [hs2, writeBlock_length, List.length_set]
    -- the closing 'e'
    have hpop := process_any_pop s2 (by rw [hs2])
    rw [addToBuf_ok s2 tPop (by rw [hlen2]; simp [hs2]; omega) (by rw [hlen2]; omega)]
      at hpop
    simp only at hpop
    rw [(by omega : s.level + 1 - 1 = s.level)] at hpop
    rw [wrap8_id (by omega) (by omega)] at hpop
    rw [itemDone_pos _ (by simpa using hlev)] at hpop
    simp only at hpop
    have hw : writeBlock s.buffer s.next (tokensV (BVal.list xs))
        = (writeBlock (s.buffer.set s.next tList) (s.next + 1)
            (tokensL xs)).set (s.next + 1 + (tokensL xs).length) tPop := by
      show writeBlock s.buffer s.next ([tList] ++ (tokensL xs ++ [tPop])) = _
      rw [writeBlock_append, writeBlock_append]
      simp [writeBlock]
    constructor
    · show processAll s (108 :: (encodeList xs ++ [101])) = _
      simp only [processAll, hopen]
      rw [processAll_append, hm1]
      simp only [processAll, hpop]
      rw [hw]
      rw [(by rw [afterCount] : afterCount (BVal.list xs) s.count = afterCountL xs s.count)]
      rw [(by rw [htl]; omega : s.next + (tokensV (BVal.list xs)).length
        = s.next + 1 + (tokensL xs).length + 1)]
      refine Prod.ext ?_ ?_
      · rfl
      · simp only
        show (0 : Nat) :: (List.replicate (encodeList xs).length 0 ++ [0])
            = List.replicate (encodeVal (BVal.list xs)).length 0
        have hel : (encodeVal (BVal.list xs)).length = (encodeList xs).length + 1 + 1 := by
          simp [encodeVal]
        rw [hel, List.replicate_succ, ← List.replicate_succ']
    · show minLev s (108 :: (encodeList xs ++ [101])) = s.level
      simp only [minLev, hopen]
      rw [minLev_append, hm2, hm1]
      simp only [minLev, hpop]
      omega
  | dict ps =>
    intro s hg hst hlev hdep hroom hbl
    have hgx : goodP ps = true := by simpa [goodV] using hg
    have hdx : s.level + 1 + (depthP ps : Int) ≤ 127 := by
      have : (depthV (BVal.dict ps) : Int) = 1 + (depthP ps : Int) := by
        simp [depthV]
      omega
    have htl : (tokensV (BVal.dict ps)).length = (tokensP ps).length + 2 := by
      simp [tokensV]
    rw [htl] at hroom
    have hnext : s.next < s.buffer.length := by omega
    have hopen := process_any_open s 100 hst (Or.inl rfl)
    rw [addToBuf_ok s _ hnext hbl] at hopen
    simp only at hopen
    simp only [if_true] at hopen
    rw [wrap8_id (by omega) (by omega)] at hopen
    obtain ⟨hm1, hm2⟩ := procP ps { s with
      buffer := s.buffer.set s.next tDict
      next := s.next + 1
      level := s.level + 1 } (by simpa using hgx) (by simpa using hst)
      (by simp; omega) (by simpa using hdx)
      (by simp [List.length_set]; omega) (by simp [List.length_set]; omega)
    simp only at hm1 hm2
    set s2 : DState := { s with
      level := s.level + 1
      buffer := writeBlock (s.buffer.set s.next tDict) (s.next + 1) (tokensP ps)
      count := afterCountP ps s.count
      next := s.next + 1 + (tokensP ps).length
      state := embAny } with hs2
    have hlen2 : s2.buffer.length = s.buffer.length := by
      simp [hs2, writeBlock_length, List.length_set]
    have hpop := process_any_pop s2 (by rw [hs2])
    rw [addToBuf_ok s2 tPop (by rw [hlen2]; simp [hs2]; omega) (by rw [hlen2]; omega)]
      at hpop
    simp only at hpop
    rw [(by omega : s.level + 1 - 1 = s.level)] at hpop
    rw [wrap8_id (by omega) (by omega)] at hpop
    rw [itemDone_pos _ (by simpa using hlev)] at hpop
    simp only at hpop
    have hw : writeBlock s.buffer s.next (tokensV (BVal.dict ps))
        = (writeBlock (s.buffer.set s.next tDict) (s.next + 1)
            (tokensP ps)).set (s.next + 1 + (tokensP ps).length) tPop := by
      show writeBlock s.buffer s.next ([tDict] ++ (tokensP ps ++ [tPop])) = _
      rw [writeBlock_append, writeBlock_append]
      simp [writeBlock]
    constructor
    · show processAll s (100 :: (encodePairs ps ++ [101])) = _
      simp only [processAll, hopen]
      rw [processAll_append, hm1]
      simp only [processAll, hpop]
      rw [hw]
      rw [(by rw [afterCount] : afterCount (BVal.dict ps) s.count = afterCountP ps s.count)]
      rw [(by rw [htl]; omega : s.next + (tokensV (BVal.dict ps)).length
        = s.next + 1 + (tokensP ps).length + 1)]
      refine Prod.ext ?_ ?_
      · rfl
      · simp only
        show (0 : Nat) :: (List.replicate (encodePairs ps).length 0 ++ [0])
            = List.replicate (encodeVal (BVal.dict ps)).length 0
        have hel : (encodeVal (BVal.dict ps)).length
            = (encodePairs ps).length + 1 + 1 := by
          simp [encodeVal]
        rw [hel, List.replicate_succ, ← List.replicate_succ']
    · show minLev s (100 :: (encodePairs ps ++ [101])) = s.level
      simp only [minLev, hopen]
      rw [minLev_append, hm2, hm1]
      simp only [minLev, hpop]
      omega

theorem procL (xs : BList) : ∀ s : DState, goodL xs = true → s.state = embAny →
    1 ≤ s.level → s.level + (depthL xs : Int) ≤ 127 →
    s.next + (tokensL xs).length ≤ s.buffer.length → s.buffer.length ≤ 255 →
    processAll s (encodeList xs)
      = ({ s with
           buffer := writeBlock s.buffer s.next (tokensL xs)
           count := afterCountL xs s.count
           next := s.next + (tokensL xs).length
           state := embAny }, List.replicate (encodeList xs).length 0)
      ∧ minLev s (encodeList xs) = s.level := by
  cases xs with
  | nil =>
    intro s hg hst hlev hdep hroom hbl
    constructor
    · show (s, ([] : List Nat)) = _
      cases s with
      | mk lv bf cn nx ls st =>
        simp only at hst
        subst hst
        simp [writeBlock, tokensL, afterCountL, encodeList]
    · rfl
  | cons v tl =>
    intro s hg hst hlev hdep hroom hbl
    have hgv : goodV v = true := by
      simp [goodL] at hg
      exact hg.1
    have hgt : goodL tl = true := by
      simp [goodL] at hg
      exact hg.2
    have hdv : s.level + (depthV v : Int) ≤ 127 := by
      have hc : (depthV v : Int) ≤ (depthL (BList.cons v tl) : Int) := by
        exact_mod_cast Nat.le_max_left _ _
      omega
    have hdt : s.level + (depthL tl : Int) ≤ 127 := by
      have hc : (depthL tl : Int) ≤ (depthL (BList.cons v tl) : Int) := by
        exact_mod_cast Nat.le_max_right _ _
      omega
    have htl : (tokensL (BList.cons v tl)).length
        = (tokensV v).length + (tokensL tl).length := by
      simp [tokensL]
    rw [htl] at hroom
    obtain ⟨h1, h2⟩ := procV v s hgv hst hlev hdv (by omega) hbl
    obtain ⟨h3, h4⟩ := procL tl { s with
      buffer := writeBlock s.buffer s.next (tokensV v)
      count := afterCount v s.count
      next := s.next + (tokensV v).length
      state := embAny } hgt rfl (by simpa using hlev) (by simpa using hdt)
      (by simp [writeBlock_length]; omega) (by simp [writeBlock_length]; omega)
    simp only at h3 h4
    constructor
    · show processAll s (encodeVal v ++ encodeList tl) = _
      rw [processAll_append, h1]
      simp only
      rw [h3]
      refine Prod.ext ?_ ?_
      · simp only
        show ({ s with
            buffer := writeBlock (writeBlock s.buffer s.next (tokensV v))
              (s.next + (tokensV v).length) (tokensL tl)
            count := afterCountL tl (afterCount v s.count)
            next := s.next + (tokensV v).length + (tokensL tl).length
            state := embAny } : DState) = _
        rw [← writeBlock_append]
        show _ = ({ s with
            buffer := writeBlock s.buffer s.next (tokensL (BList.cons v tl))
            count := afterCountL (BList.cons v tl) s.count
            next := s.next + (tokensL (BList.cons v tl)).length
            state := embAny } : DState)
        rw [htl, (by rw [tokensL] : tokensL (BList.cons v tl) = tokensV v ++ tokensL tl),
          (by rw [afterCountL] : afterCountL (BList.cons v tl) s.count
            = afterCountL tl (afterCount v s.count)),
          (by omega : s.next + ((tokensV v).length + (tokensL tl).length)
            = s.next + (tokensV v).length + (tokensL tl).length)]
      · simp only
        show List.replicate (encodeVal v).length 0
              ++ List.replicate (encodeList tl).length 0 = _
        rw [replicate_zero_append]
        show _ = List.replicate (encodeList (BList.cons v tl)).length 0
        congr 1
        simp [encodeList]
    · show minLev s (encodeVal v ++ encodeList tl) = s.level
      rw [minLev_append, h2, h1]
      simp only
      rw [h4]
      simp

theorem procP (ps : BPairs) : ∀ s : DState, goodP ps = true → s.state = embAny →
    1 ≤ s.level → s.level + (depthP ps : Int) ≤ 127 →
    s.next + (tokensP ps).length ≤ s.buffer.length → s.buffer.length ≤ 255 →
    processAll s (encodePairs ps)
      = ({ s with
           buffer := writeBlock s.buffer s.next (tokensP ps)
           count := afterCountP ps s.count
           next := s.next + (tokensP ps).length
           state := embAny }, List.replicate (encodePairs ps).length 0)
      ∧ minLev s (encodePairs ps) = s.level := by
  cases ps with
  | nil =>
    intro s hg hst hlev hdep hroom hbl
    constructor
    · show (s, ([] : List Nat)) = _
      cases s with
      | mk lv bf cn nx ls st =>
        simp only at hst
        subst hst
        simp [writeBlock, tokensP, afterCountP, encodePairs]
    · rfl
  | cons k v tl =>
    intro s hg hst hlev hdep hroom hbl
    have hgk : k.length ≤ 250 := by
      simp [goodP] at hg
      exact hg.1.1.1
    have hgv : goodV v = true := by
      simp [goodP] at hg
      exact hg.1.2
    have hgt : goodP tl = true := by
      simp [goodP] at hg
      exact hg.2
    have hdv : s.level + (depthV v : Int) ≤ 127 := by
      have hc : (depthV v : Int) ≤ (depthP (BPairs.cons k v tl) : Int) := by
        exact_mod_cast Nat.le_max_left _ _
      omega
    have hdt : s.level + (depthP tl : Int) ≤ 127 := by
      have hc : (depthP tl : Int) ≤ (depthP (BPairs.cons k v tl) : Int) := by
        exact_mod_cast Nat.le_max_right _ _
      omega
    have htl : (tokensP (BPairs.cons k v tl)).length
        = (k.length + 2) + ((tokensV v).length + (tokensP tl).length) := by
      simp [tokensP, tokensStr]
      omega
    rw [htl] at hroom
    -- the key string
    obtain ⟨hk1, hk2⟩ := processAll_string k s hst hgk (by omega) hbl
    have hid := itemDone_pos { s with
        buffer := writeBlock s.buffer s.next (tokensStr k)
        next := s.next + (k.length + 2)
        count := 0 } (by simpa using hlev)
    rw [hid] at hk1 hk2
    simp only at hk1 hk2
    -- the value
    obtain ⟨hv1, hv2⟩ := procV v { s with
      buffer := writeBlock s.buffer s.next (tokensStr k)
      next := s.next + (k.length + 2)
      count := 0
      state := embAny } hgv rfl (by simpa using hlev) (by simpa using hdv)
      (by simp [writeBlock_length]; omega) (by simp [writeBlock_length]; omega)
    simp only at hv1 hv2
    -- the tail
    obtain ⟨ht1, ht2⟩ := procP tl { s with
      buffer := writeBlock (writeBlock s.buffer s.next (tokensStr k))
        (s.next + (k.length + 2)) (tokensV v)
      next := s.next + (k.length + 2) + (tokensV v).length
      count := afterCount v 0
      state := embAny } hgt rfl (by simpa using hlev) (by simpa using hdt)
      (by simp [writeBlock_length]; omega) (by simp [writeBlock_length]; omega)
    simp only at ht1 ht2
    constructor
    · show processAll s (pushStrB k ++ encodeVal v ++ encodePairs tl) = _
      rw [List.append_assoc, processAll_append, hk1]
      simp only
      rw [processAll_append, hv1]
      simp only
      rw [ht1]
      rw [(by rw [tokensP] : tokensP (BPairs.cons k v tl)
        = tokensStr k ++ tokensV v ++ tokensP tl)]
      rw [(by rw [afterCountP] : afterCountP (BPairs.cons k v tl) s.count
        = afterCountP tl (afterCount v 0))]
      rw [(by simp [tokensStr_length]; omega :
        (tokensStr k ++ tokensV v ++ tokensP tl).length
          = k.length + 2 + (tokensV v).length + (tokensP tl).length)]
      rw [(by omega : s.next + (k.length + 2 + (tokensV v).length + (tokensP tl).length)
        = s.next + (k.length + 2) + (tokensV v).length + (tokensP tl).length)]
      rw [writeBlock_append, writeBlock_append, tokensStr_length]
      rw [(by simp [tokensStr_length] :
        s.next + (tokensStr k ++ tokensV v).length
          = s.next + (k.length + 2 + (tokensV v).length))]
      rw [(by omega : s.next + (k.length + 2 + (tokensV v).length)
        = s.next + (k.length + 2) + (tokensV v).length)]
      refine Prod.ext ?_ ?_
      · rfl
      · simp only
        show (List.replicate ((pushStrB k).length - 1) 0 ++ [0])
              ++ (List.replicate (encodeVal v).length 0
                ++ List.replicate (encodePairs tl).length 0) = _
        rw [replicate_snoc_zero _ (pushStrB_len_pos k), replicate_zero_append,
          replicate_zero_append]
        show _ = List.replicate (encodePairs (BPairs.cons k v tl)).length 0
        congr 1
        simp [encodePairs]
    · show minLev s (pushStrB k ++ encodeVal v ++ encodePairs tl) = s.level
      rw [List.append_assoc, minLev_append, hk2, hk1]
      simp only
      rw [minLev_append, hv2, hv1]
      simp only
      rw [ht2]
      simp
end

/-! ## Processing a complete top-level message -/

/-- Feeding the wire encoding of a representable value to a decoder in
its reset state (level 0, write position 0): every byte but the last
returns 0; the last byte appends the `T_END` tag, returns the total
number of buffer bytes the message occupied, and resets the decoder for
the next message. -/
theorem processTop (v : BVal) (s : DState) (hg : goodV v = true)
    (hd : (depthV v : Int) ≤ 127) (hst : s.state = embAny) (hlev : s.level = 0)
    (hnext : s.next = 0) (hroom : (tokensV v).length + 1 ≤ s.buffer.length)
    (hbl : s.buffer.length ≤ 255) :
    processAll s (encodeVal v)
      = ({ level := 0
           buffer := writeBlock s.buffer 0 (tokensV v ++ [tEnd])
           count := (tokensV v).length + 1
           next := 0
           last := s.last
           state := embAny },
         List.replicate ((encodeVal v).length - 1) 0 ++ [(tokensV v).length + 1])
    ∧ minLev s (encodeVal v) = 0 := by
  cases v with
  | str b =>
    have hlen : b.length ≤ 250 := by
      simp [goodV] at hg
      exact hg.1
    have htl : (tokensV (BVal.str b)).length = b.length + 2 := by
      simp [tokensV, tokensStr]
    rw [htl] at hroom ⊢
    obtain ⟨h1, h2⟩ := processAll_string b s hst hlen (by omega) hbl
    simp only [hnext, Nat.zero_add] at h1 h2
    have hid := itemDone_done { s with
        buffer := writeBlock s.buffer 0 (tokensStr b)
        next := b.length + 2
        count := 0 } (by simpa using le_of_eq hlev)
    rw [addToBuf_ok _ tEnd (by simp [writeBlock_length]; omega)
      (by simp [writeBlock_length]; omega)] at hid
    simp only at hid
    rw [hid] at h1 h2
    have hw : (writeBlock s.buffer 0 (tokensStr b)).set (b.length + 2) tEnd
        = writeBlock s.buffer 0 (tokensV (BVal.str b) ++ [tEnd]) := by
      show _ = writeBlock s.buffer 0 (tokensStr b ++ [tEnd])
      rw [writeBlock_append]
      simp [writeBlock, tokensStr_length]
    rw [hw] at h1 h2
    simp only [resetD] at h1 h2
    rw [hlev] at h2
    constructor
    · show processAll s (pushStrB b) = _
      rw [h1]
      rfl
    · show minLev s (pushStrB b) = 0
      rw [h2]
      simp
  | intg n =>
    have htl : (tokensV (BVal.intg n)).length = (intText n).length + 2 := by
      simp [tokensV]
    rw [htl] at hroom ⊢
    obtain ⟨h1, h2⟩ := processAll_int n s hst (by omega) hbl
    simp only [hnext, Nat.zero_add] at h1 h2
    have hid := itemDone_done { s with
        buffer := writeBlock s.buffer 0 (tNumber :: (intText n ++ [0]))
        next := (intText n).length + 2 } (by simpa using le_of_eq hlev)
    rw [addToBuf_ok _ tEnd (by simp [writeBlock_length]; omega)
      (by simp [writeBlock_length]; omega)] at hid
    simp only at hid
    rw [hid] at h1 h2
    have hw : (writeBlock s.buffer 0 (tNumber :: (intText n ++ [0]))).set
          ((intText n).length + 2) tEnd
        = writeBlock s.buffer 0 (tokensV (BVal.intg n) ++ [tEnd]) := by
      show _ = writeBlock s.buffer 0 ((tNumber :: (intText n ++ [0])) ++ [tEnd])
      rw [writeBlock_append]
      simp [writeBlock]
    rw [hw] at h1 h2
    simp only [resetD] at h1 h2
    rw [hlev] at h2
    constructor
    · show processAll s (pushLongB n) = _
      rw [h1]
      rfl
    · show minLev s (pushLongB n) = 0
      rw [h2]
      simp
  | list xs =>
    have hgx : goodL xs = true := by simpa [goodV] using hg
    have hdx : (1 : Int) + (depthL xs : Int) ≤ 127 := by
      have : (depthV (BVal.list xs) : Int) = 1 + (depthL xs : Int) := by
        simp [depthV]
      omega
    have htl : (tokensV (BVal.list xs)).length = (tokensL xs).length + 2 := by
      simp [tokensV]
    rw [htl] at hroom ⊢
    have hopen := process_any_open s 108 hst (Or.inr rfl)
    rw [addToBuf_ok s _ (by omega) hbl] at hopen
    simp only at hopen
    rw [if_neg (by norm_num)] at hopen
    rw [hlev, hnext] at hopen
    rw [wrap8_id (by omega) (by omega)] at hopen
    obtain ⟨hm1, hm2⟩ := procL xs { s with
      buffer := s.buffer.set 0 tList
      next := 0 + 1
      level := 0 + 1 } (by simpa using hgx) (by simpa using hst)
      (by simp) (by simpa using hdx)
      (by simp [List.length_set]; omega) (by simp [List.length_set]; omega)
    simp only [Nat.zero_add, Int.zero_add] at hm1 hm2 hopen
    set s2 : DState := { s with
      level := 1
      buffer := writeBlock (s.buffer.set 0 tList) 1 (tokensL xs)
      count := afterCountL xs s.count
      next := 1 + (tokensL xs).length
      state := embAny } with hs2
    have hlen2 : s2.buffer.length = s.buffer.length := by
      simp [hs2, writeBlock_length, List.length_set]
    have hpop := process_any_pop s2 (by rw [hs2])
    rw [addToBuf_ok s2 tPop (by rw [hlen2]; simp [hs2]; omega) (by rw [hlen2]; omega)]
      at hpop
    simp only at hpop
    rw [(by omega : (1 : Int) - 1 = 0)] at hpop
    rw [wrap8_id (by omega) (by omega)] at hpop
    rw [itemDone_done _ (by simp)] at hpop
    rw [addToBuf_ok _ tEnd (by simp [writeBlock_length, List.length_set]; omega)
      (by simp [writeBlock_length, List.length_set]; omega)] at hpop
    simp only [resetD] at hpop
    have hw : ((writeBlock (s.buffer.set 0 tList) 1 (tokensL xs)).set
          (1 + (tokensL xs).length) tPop).set (1 + (tokensL xs).length + 1) tEnd
        = writeBlock s.buffer 0 (tokensV (BVal.list xs) ++ [tEnd]) := by
      show _ = writeBlock s.buffer 0 (([tList] ++ (tokensL xs ++ [tPop])) ++ [tEnd])
      rw [writeBlock_append, writeBlock_append, writeBlock_append]
      simp [writeBlock]
      rw [(by omega : (tokensL xs).length + 1 + 1 = 1 + (tokensL xs).length + 1)]
    rw [hw] at hpop
    constructor
    · show processAll s (108 :: (encodeList xs ++ [101])) = _
      simp only [processAll, hopen]
      rw [processAll_append, hm1]
      simp only [processAll, hpop]
      rw [(by omega : (tokensL xs).length + 2 + 1 = 1 + (tokensL xs).length + 1 + 1)]
      refine congrArg (fun x => (_, x)) ?_
      show (0 : Nat) :: (List.replicate (encodeList xs).length 0
            ++ [1 + (tokensL xs).length + 1 + 1])
          = List.replicate ((encodeVal (BVal.list xs)).length - 1) 0
            ++ [1 + (tokensL xs).length + 1 + 1]
      have hel : (encodeVal (BVal.list xs)).length - 1
          = (encodeList xs).length + 1 := by
        simp only [encodeVal, List.length_cons, List.length_append, List.length_nil]
        omega
      rw [hel, List.replicate_succ]
      simp only [List.cons_append]
    · show minLev s (108 :: (encodeList xs ++ [101])) = 0
      simp only [minLev, hopen]
      rw [minLev_append, hm2, hm1]
      simp only [minLev, hpop, hs2]
      rw [hlev]
      omega
  | dict ps =>
    have hgx : goodP ps = true := by simpa [goodV] using hg
    have hdx : (1 : Int) + (depthP ps : Int) ≤ 127 := by
      have : (depthV (BVal.dict ps) : Int) = 1 + (depthP ps : Int) := by
        simp [depthV]
      omega
    have htl : (tokensV (BVal.dict ps)).length = (tokensP ps).length + 2 := by
      simp [tokensV]
    rw [htl] at hroom ⊢
    have hopen := process_any_open s 100 hst (Or.inl rfl)
    rw [addToBuf_ok s _ (by omega) hbl] at hopen
    simp only at hopen
    simp only [if_true] at hopen
    rw [hlev, hnext] at hopen
    rw [wrap8_id (by omega) (by omega)] at hopen
    obtain ⟨hm1, hm2⟩ := procP ps { s with
      buffer := s.buffer.set 0 tDict
      next := 0 + 1
      level := 0 + 1 } (by simpa using hgx) (by simpa using hst)
      (by simp) (by simpa using hdx)
      (by simp [List.length_set]; omega) (by simp [List.length_set]; omega)
    simp only [Nat.zero_add, Int.zero_add] at hm1 hm2 hopen
    set s2 : DState := { s with
      level := 1
      buffer := writeBlock (s.buffer.set 0 tDict) 1 (tokensP ps)
      count := afterCountP ps s.count
      next := 1 + (tokensP ps).length
      state := embAny } with hs2
    have hlen2 : s2.buffer.length = s.buffer.length := by
      simp [hs2, writeBlock_length, List.length_set]
    have hpop := process_any_pop s2 (by rw [hs2])
    rw [addToBuf_ok s2 tPop (by rw [hlen2]; simp [hs2]; omega) (by rw [hlen2]; omega)]
      at hpop
    simp only at hpop
    rw [(by omega : (1 : Int) - 1 = 0)] at hpop
    rw [wrap8_id (by omega) (by omega)] at hpop
    rw [itemDone_done _ (by simp)] at hpop
    rw [addToBuf_ok _ tEnd (by simp [writeBlock_length, List.length_set]; omega)
      (by simp [writeBlock_length, List.length_set]; omega)] at hpop
    simp only [resetD] at hpop
    have hw : ((writeBlock (s.buffer.set 0 tDict) 1 (tokensP ps)).set
          (1 + (tokensP ps).length) tPop).set (1 + (tokensP ps).length + 1) tEnd
        = writeBlock s.buffer 0 (tokensV (BVal.dict ps) ++ [tEnd]) := by
      show _ = writeBlock s.buffer 0 (([tDict] ++ (tokensP ps ++ [tPop])) ++ [tEnd])
      rw [writeBlock_append, writeBlock_append, writeBlock_append]
      simp [writeBlock]
      rw [(by omega : (tokensP ps).length + 1 + 1 = 1 + (tokensP ps).length + 1)]
    rw [hw] at hpop
    constructor
    · show processAll s (100 :: (encodePairs ps ++ [101])) = _
      simp only [processAll, hopen]
      rw [processAll_append, hm1]
      simp only [processAll, hpop]
      rw [(by omega : (tokensP ps).length + 2 + 1 = 1 + (tokensP ps).length + 1 + 1)]
      refine congrArg (fun x => (_, x)) ?_
      show (0 : Nat) :: (List.replicate (encodePairs ps).length 0
            ++ [1 + (tokensP ps).length + 1 + 1])
          = List.replicate ((encodeVal (BVal.dict ps)).length - 1) 0
            ++ [1 + (tokensP ps).length + 1 + 1]
      have hel : (encodeVal (BVal.dict ps)).length - 1
          = (encodePairs ps).length + 1 := by
        simp only [encodeVal, List.length_cons, List.length_append, List.length_nil]
        omega
      rw [hel, List.replicate_succ]
      simp only [List.cons_append]
    · show minLev s (100 :: (encodePairs ps ++ [101])) = 0
      simp only [minLev, hopen]
      rw [minLev_append, hm2, hm1]
      simp only [minLev, hpop, hs2]
      rw [hlev]
      omega

/-! ## Reading tokens back: `nextToken`, `asString`, `asNumber` -/

theorem SegAt.head {buf : List Nat} {p : Nat} {c : Nat} {l : List Nat}
    (h : SegAt buf p (c :: l)) : buf.getD p 0 = c := by
  have := h 0 (by simp)
  simpa using this

theorem SegAt.tail {buf : List Nat} {p : Nat} {c : Nat} {l : List Nat}
    (h : SegAt buf p (c :: l)) : SegAt buf (p + 1) l := by
  intro k hk
  have := h (k + 1) (by simp; omega)
  rw [(by omega : p + (k + 1) = p + 1 + k)] at this
  simpa using this

/-- The `T_NUMBER` scan loop stops just past the zero terminator. -/
theorem scanZ_spec (t : List Nat) : ∀ (buf : List Nat) (i f : Nat),
    (∀ c ∈ t, c ≠ 0) → SegAt buf i (t ++ [0]) →
    i + t.length + 1 ≤ 255 → t.length + 1 ≤ f →
    scanZ buf f i = i + t.length + 1 := by
  induction t with
  | nil =>
    intro buf i f _ hseg hb hf
    have h0 : buf.getD i 0 = 0 := SegAt.head hseg
    cases f with
    | zero => omega
    | succ f =>
      simp only [scanZ, h0, if_pos rfl]
      simp at hb ⊢
      omega
  | cons c cs ih =>
    intro buf i f hne hseg hb hf
    have hc : buf.getD i 0 = c := SegAt.head (by simpa using hseg)
    have hcne : c ≠ 0 := hne c (by simp)
    cases f with
    | zero => simp at hf
    | succ f =>
      simp only [scanZ, hc]
      rw [if_neg hcne]
      rw [(by simp at hb ⊢; omega : (i + 1) % 256 = i + 1)]
      have := ih buf (i + 1) f (fun x hx => hne x (by simp [hx]))
        (SegAt.tail (by simpa using hseg)) (by simp at hb ⊢; omega)
        (by simp at hf ⊢; omega)
      rw [this]
      simp
      omega

/-- `cString` reads back a zero-terminated text from the buffer. -/
theorem cString_spec (t : List Nat) : ∀ (buf : List Nat) (i f : Nat),
    (∀ c ∈ t, c ≠ 0) → SegAt buf i (t ++ [0]) → t.length + 1 ≤ f →
    cString buf f i = t := by
  induction t with
  | nil =>
    intro buf i f _ hseg hf
    have h0 : buf.getD i 0 = 0 := SegAt.head hseg
    cases f with
    | zero => omega
    | succ f =>
      rw [List.getD_eq_getElem?_getD] at h0
      simp [cString, h0]
  | cons c cs ih =>
    intro buf i f hne hseg hf
    have hc : buf.getD i 0 = c := SegAt.head (by simpa using hseg)
    have hcne : c ≠ 0 := hne c (by simp)
    cases f with
    | zero => simp at hf
    | succ f =>
      simp only [cString, hc]
      rw [if_neg hcne]
      rw [ih buf (i + 1) f (fun x hx => hne x (by simp [hx]))
        (SegAt.tail (by simpa using hseg)) (by simp at hf ⊢; omega)]

theorem nextToken_str (s : DState) (L : Nat) (hL : L ≤ 250)
    (hch : s.buffer.getD s.next 0 = L) (hn : s.next + L + 2 ≤ s.buffer.length)
    (hbl : s.buffer.length ≤ 255) :
    nextToken s = (tString, { s with next := s.next + L + 2, last := s.next + 1 }) := by
  unfold nextToken
  simp only [hch]
  rw [if_neg (by unfold tNumber; omega), if_neg (by unfold tEnd; omega),
    if_neg (by unfold tDict tList tPop; omega)]
  rw [(by omega : (s.next + 1) % 256 = s.next + 1)]
  rw [(by omega : (s.next + 1 + L + 1) % 256 = s.next + L + 2)]

theorem nextToken_num (s : DState) (t : List Nat)
    (hch : s.buffer.getD s.next 0 = tNumber)
    (hne : ∀ c ∈ t, c ≠ 0)
    (hseg : SegAt s.buffer (s.next + 1) (t ++ [0]))
    (hn : s.next + t.length + 2 ≤ s.buffer.length) (hbl : s.buffer.length ≤ 255) :
    nextToken s = (tNumber, { s with
      next := s.next + t.length + 2
      last := s.next + 1 }) := by
  unfold nextToken
  simp only [hch, if_true]
  rw [(by omega : (s.next + 1) % 256 = s.next + 1)]
  rw [scanZ_spec t s.buffer (s.next + 1) 256 hne hseg (by omega) (by omega)]
  rw [(by omega : s.next + 1 + t.length + 1 = s.next + t.length + 2)]

theorem nextToken_ctl (s : DState) (c : Nat) (hc : c = tDict ∨ c = tList ∨ c = tPop)
    (hch : s.buffer.getD s.next 0 = c)
    (hn : s.next + 1 ≤ 255) :
    nextToken s = (c, { s with next := s.next + 1, last := s.next + 1 }) := by
  unfold nextToken
  simp only [hch]
  rw [if_neg (by unfold tNumber tDict tList tPop at *; omega),
    if_neg (by unfold tEnd tDict tList tPop at *; omega), if_pos hc]
  rw [(by omega : (s.next + 1) % 256 = s.next + 1)]

theorem nextToken_end (s : DState) (hch : s.buffer.getD s.next 0 = tEnd)
    (hn : s.next + 1 ≤ 255) :
    nextToken s = (tEnd, { s with next := s.next, last := s.next + 1 }) := by
  unfold nextToken
  simp only [hch]
  rw [if_neg (by unfold tNumber tEnd; omega)]
  simp only [if_true]
  rw [(by omega : (s.next + 1) % 256 = s.next + 1)]
  rw [(by omega : (s.next + 1 + 255) % 256 = s.next)]

theorem asStringLen_eq (s : DState) (L : Nat) (hnl : s.next = s.last + L + 1)
    (hL : L < 256) : asStringLen s = L := by
  unfold asStringLen
  rw [hnl]
  rw [(by push_cast; ring : ((s.last + L + 1 : Nat) : Int) - s.last - 1 = (L : Int))]
  rw [Int.emod_eq_of_lt (by omega) (by omega : (L : Int) < 256)]
  simp

theorem asStringBytes_eq (s : DState) (b : List Nat)
    (hseg : SegAt s.buffer s.last b) (hroom : s.last + b.length ≤ s.buffer.length)
    (hnl : s.next = s.last + b.length + 1) (hL : b.length < 256) :
    asStringBytes s = b := by
  unfold asStringBytes
  rw [asStringLen_eq s b.length hnl hL]
  exact SegAt.extract hseg hroom

/-- Reading the integer payload through `asNumber` after a `T_NUMBER`
token recovers the encoded value. -/
theorem asNumber_eq (s : DState) (n : Int)
    (h1 : -2147483648 < n) (h2 : n < 2147483648)
    (hseg : SegAt s.buffer s.last (intText n ++ [0]))
    (hroom : s.last + (intText n).length + 1 ≤ s.buffer.length) :
    asNumber s = n := by
  unfold asNumber
  rw [cString_spec (intText n) s.buffer s.last s.buffer.length
    (fun c hc => intText_ne_zero hc) hseg (by omega)]
  exact atolM_intText h1 h2

/-- The token tag seen by the caller at the start of a value's token
stream (`nextToken` reports any tag below `T_NUMBER` as `T_STRING`). -/
def tagOf : BVal → Nat
  | .str _ => tString
  | .intg _ => tNumber
  | .dict _ => tDict
  | .list _ => tList

theorem nextTag (v : BVal) (s : DState) (p : Nat) (hg : goodV v = true)
    (hseg : SegAt s.buffer p (tokensV v)) (hp : s.next = p)
    (hroom : p + (tokensV v).length ≤ s.buffer.length) (hbl : s.buffer.length ≤ 255) :
    (nextToken s).1 = tagOf v := by
  cases v with
  | str b =>
    have hlen : b.length ≤ 250 := by
      simp [goodV] at hg
      exact hg.1
    have hch : s.buffer.getD s.next 0 = b.length := by
      rw [hp]
      exact SegAt.head (by simpa [tokensV, tokensStr] using hseg)
    have hroom2 : s.next + b.length + 2 ≤ s.buffer.length := by
      simp [tokensV, tokensStr] at hroom
      omega
    rw [nextToken_str s b.length hlen hch hroom2 hbl]
    rfl
  | intg n =>
    have hch : s.buffer.getD s.next 0 = tNumber := by
      rw [hp]
      exact SegAt.head (by simpa [tokensV] using hseg)
    unfold nextToken
    simp only [hch, if_true]
    rfl
  | list xs =>
    have hch : s.buffer.getD s.next 0 = tList := by
      rw [hp]
      exact SegAt.head (by simpa [tokensV] using hseg)
    have hn : s.next + 1 ≤ 255 := by
      simp [tokensV] at hroom
      omega
    rw [nextToken_ctl s tList (Or.inr (Or.inl rfl)) hch hn]
    rfl
  | dict ps =>
    have hch : s.buffer.getD s.next 0 = tDict := by
      rw [hp]
      exact SegAt.head (by simpa [tokensV] using hseg)
    have hn : s.next + 1 ≤ 255 := by
      simp [tokensV] at hroom
      omega
    rw [nextToken_ctl s tDict (Or.inl rfl) hch hn]
    rfl

theorem tagOf_ne_pop (v : BVal) : tagOf v ≠ tPop := by
  cases v <;> simp [tagOf, tString, tNumber, tDict, tList, tPop]

/-! ## Walking a stored token stream reconstructs the value -/

mutual
theorem readTokOk (v : BVal) : ∀ (s : DState) (p f : Nat), goodV v = true →
    SegAt s.buffer p (tokensV v) → s.next = p →
    p + (tokensV v).length ≤ s.buffer.length → s.buffer.length ≤ 255 →
    fuelV v ≤ f →
    ∃ l2, readTok f s = some (v, { s with next := p + (tokensV v).length, last := l2 }) := by
  cases v with
  | str b =>
    intro s p f hg hseg hp hroom hbl hf
    have hlen : b.length ≤ 250 := by
      simp [goodV] at hg
      exact hg.1
    have htlen : (tokensV (BVal.str b)).length = b.length + 2 := by
      simp [tokensV, tokensStr]
    have hch : s.buffer.getD s.next 0 = b.length := by
      rw [hp]
      exact SegAt.head (by simpa [tokensV, tokensStr] using hseg)
    have hroom2 : s.next + b.length + 2 ≤ s.buffer.length := by
      rw [htlen] at hroom
      omega
    have hnt := nextToken_str s b.length hlen hch hroom2 hbl
    cases f with
    | zero => simp [fuelV] at hf
    | succ f =>
      refine ⟨s.next + 1, ?_⟩
      simp only [readTok, hnt]
      rw [if_neg (by unfold tString tNumber; omega),
        if_neg (by unfold tString tDict; omega),
        if_neg (by unfold tString tList; omega),
        if_neg (by unfold tString tPop tEnd; omega)]
      have hsegb : SegAt s.buffer (s.next + 1) b := by
        rw [hp]
        exact SegAt.prefixSeg (SegAt.tail (by simpa [tokensV, tokensStr] using hseg))
      have hbytes : asStringBytes { s with
          next := s.next + b.length + 2
          last := s.next + 1 } = b := by
        refine asStringBytes_eq _ b (by simpa using hsegb) ?_ ?_ (by omega)
        · simpa using by omega
        · simp
          omega
      rw [hbytes]
      rw [htlen, hp]
      rw [(by omega : p + (b.length + 2) = p + b.length + 2)]
  | intg n =>
    intro s p f hg hseg hp hroom hbl hf
    have hr : -2147483648 < n ∧ n < 2147483648 := by
      simp [goodV] at hg
      omega
    have htlen : (tokensV (BVal.intg n)).length = (intText n).length + 2 := by
      simp [tokensV]
    have hch : s.buffer.getD s.next 0 = tNumber := by
      rw [hp]
      exact SegAt.head (by simpa [tokensV] using hseg)
    have hsegt : SegAt s.buffer (s.next + 1) (intText n ++ [0]) := by
      rw [hp]
      exact SegAt.tail (by simpa [tokensV] using hseg)
    have hroom2 : s.next + (intText n).length + 2 ≤ s.buffer.length := by
      rw [htlen] at hroom
      omega
    have hnt := nextToken_num s (intText n) hch (fun c hc => intText_ne_zero hc)
      hsegt hroom2 hbl
    cases f with
    | zero => simp [fuelV] at hf
    | succ f =>
      refine ⟨s.next + 1, ?_⟩
      simp only [readTok, hnt, if_true]
      have hnum : asNumber { s with
          next := s.next + (intText n).length + 2
          last := s.next + 1 } = n := by
        refine asNumber_eq _ n hr.1 hr.2 (by simpa using hsegt) ?_
        simp
        omega
      rw [hnum]
      rw [htlen, hp]
      rw [(by omega : p + ((intText n).length + 2) = p + (intText n).length + 2)]
  | list xs =>
    intro s p f hg hseg hp hroom hbl hf
    have hgx : goodL xs = true := by simpa [goodV] using hg
    have htlen : (tokensV (BVal.list xs)).length = (tokensL xs).length + 2 := by
      simp [tokensV]
    have hch : s.buffer.getD s.next 0 = tList := by
      rw [hp]
      exact SegAt.head (by simpa [tokensV] using hseg)
    have hnt := nextToken_ctl s tList (Or.inr (Or.inl rfl)) hch
      (by rw [htlen] at hroom; omega)
    have hfx : 1 + fuelL xs ≤ f := by simpa [fuelV] using hf
    cases f with
    | zero => omega
    | succ f =>
      have h7 : SegAt s.buffer p (tList :: (tokensL xs ++ [tPop])) := by
        simpa [tokensV] using hseg
      obtain ⟨l2, hitems⟩ := readItemsOk xs { s with next := s.next + 1, last := s.next + 1 }
        (p + 1) f hgx
        (by simpa using SegAt.tail h7)
        (by simp [hp]) (by rw [htlen] at hroom; simp; omega) (by simpa using hbl)
        (by omega)
      refine ⟨l2, ?_⟩
      simp only [readTok, hnt]
      rw [if_neg (by unfold tList tNumber; omega), if_neg (by unfold tList tDict; omega)]
      simp only [if_true]
      rw [hitems]
      simp only [Option.map_some]
      rw [htlen]
      rw [(by omega : p + ((tokensL xs).length + 2) = p + 1 + (tokensL xs).length + 1)]
      rfl
  | dict ps =>
    intro s p f hg hseg hp hroom hbl hf
    have hgx : goodP ps = true := by simpa [goodV] using hg
    have htlen : (tokensV (BVal.dict ps)).length = (tokensP ps).length + 2 := by
      simp [tokensV]
    have hch : s.buffer.getD s.next 0 = tDict := by
      rw [hp]
      exact SegAt.head (by simpa [tokensV] using hseg)
    have hnt := nextToken_ctl s tDict (Or.inl rfl) hch
      (by rw [htlen] at hroom; omega)
    have hfx : 1 + fuelP ps ≤ f := by simpa [fuelV] using hf
    cases f with
    | zero => omega
    | succ f =>
      have h7 : SegAt s.buffer p (tDict :: (tokensP ps ++ [tPop])) := by
        simpa [tokensV] using hseg
      obtain ⟨l2, hpairs⟩ := readPairsOk ps { s with next := s.next + 1, last := s.next + 1 }
        (p + 1) f hgx
        (by simpa using SegAt.tail h7)
        (by simp [hp]) (by rw [htlen] at hroom; simp; omega) (by simpa using hbl)
        (by omega)
      refine ⟨l2, ?_⟩
      simp only [readTok, hnt]
      rw [if_neg (by unfold tDict tNumber; omega)]
      simp only [if_true]
      rw [hpairs]
      simp only [Option.map_some]
      rw [htlen]
      rw [(by omega : p + ((tokensP ps).length + 2) = p + 1 + (tokensP ps).length + 1)]
      rfl

theorem readItemsOk (xs : BList) : ∀ (s : DState) (p f : Nat), goodL xs = true →
    SegAt s.buffer p (tokensL xs ++ [tPop]) → s.next = p →
    p + (tokensL xs).length + 1 ≤ s.buffer.length → s.buffer.length ≤ 255 →
    fuelL xs ≤ f →
    ∃ l2, readItems f s
      = some (xs, { s with next := p + (tokensL xs).length + 1, last := l2 }) := by
  cases xs with
  | nil =>
    intro s p f hg hseg hp hroom hbl hf
    have hch : s.buffer.getD s.next 0 = tPop := by
      rw [hp]
      exact SegAt.head (by simpa [tokensL] using hseg)
    have hnt := nextToken_ctl s tPop (Or.inr (Or.inr rfl)) hch
      (by simp [tokensL] at hroom; omega)
    cases f with
    | zero => simp [fuelL] at hf
    | succ f =>
      refine ⟨s.next + 1, ?_⟩
      simp only [readItems, hnt, if_true]
      rw [hp]
      rw [(by simp [tokensL] : p + (tokensL BList.nil).length + 1 = p + 1)]
  | cons v tl =>
    intro s p f hg hseg hp hroom hbl hf
    have hgv : goodV v = true := by
      simp [goodL] at hg
      exact hg.1
    have hgt : goodL tl = true := by
      simp [goodL] at hg
      exact hg.2
    have htlen : (tokensL (BList.cons v tl)).length
        = (tokensV v).length + (tokensL tl).length := by
      simp [tokensL]
    rw [htlen] at hroom
    have hseg2 : SegAt s.buffer p (tokensV v ++ (tokensL tl ++ [tPop])) := by
      have : tokensL (BList.cons v tl) ++ [tPop]
          = tokensV v ++ (tokensL tl ++ [tPop]) := by
        show (tokensV v ++ tokensL tl) ++ [tPop] = _
        rw [List.append_assoc]
      rw [this] at hseg
      exact hseg
    have hsegv : SegAt s.buffer p (tokensV v) := SegAt.prefixSeg hseg2
    have htag := nextTag v s p hgv hsegv hp (by omega) hbl
    have hfv : fuelV v ≤ f - 1 := by
      have := Nat.le_max_left (fuelV v) (fuelL tl)
      simp [fuelL] at hf
      omega
    have hft : fuelL tl ≤ f - 1 := by
      have := Nat.le_max_right (fuelV v) (fuelL tl)
      simp [fuelL] at hf
      omega
    cases f with
    | zero => simp [fuelL] at hf
    | succ f =>
      simp only [Nat.add_sub_cancel] at hfv hft
      obtain ⟨l2, hrt⟩ := readTokOk v s p f hgv hsegv hp (by omega) hbl hfv
      obtain ⟨l3, hri⟩ := readItemsOk tl
        { s with next := p + (tokensV v).length, last := l2 } (p + (tokensV v).length) f
        hgt (by simpa using SegAt.suffixSeg hseg2) (by simp)
        (by simp; omega) (by simpa using hbl) hft
      refine ⟨l3, ?_⟩
      simp only [readItems]
      rw [if_neg (by rw [htag]; exact tagOf_ne_pop v)]
      rw [hrt]
      simp only [Option.some_bind']
      rw [hri]
      simp only [Option.map_some]
      rw [htlen]
      rw [(by omega : p + ((tokensV v).length + (tokensL tl).length) + 1
        = p + (tokensV v).length + (tokensL tl).length + 1)]
      rfl

theorem readPairsOk (ps : BPairs) : ∀ (s : DState) (p f : Nat), goodP ps = true →
    SegAt s.buffer p (tokensP ps ++ [tPop]) → s.next = p →
    p + (tokensP ps).length + 1 ≤ s.buffer.length → s.buffer.length ≤ 255 →
    fuelP ps ≤ f →
    ∃ l2, readPairs f s
      = some (ps, { s with next := p + (tokensP ps).length + 1, last := l2 }) := by
  cases ps with
  | nil =>
    intro s p f hg hseg hp hroom hbl hf
    have hch : s.buffer.getD s.next 0 = tPop := by
      rw [hp]
      exact SegAt.head (by simpa [tokensP] using hseg)
    have hnt := nextToken_ctl s tPop (Or.inr (Or.inr rfl)) hch
      (by simp [tokensP] at hroom; omega)
    cases f with
    | zero => simp [fuelP] at hf
    | succ f =>
      refine ⟨s.next + 1, ?_⟩
      simp only [readPairs, hnt, if_true]
      rw [hp]
      rw [(by simp [tokensP] : p + (tokensP BPairs.nil).length + 1 = p + 1)]
  | cons k v tl =>
    intro s p f hg hseg hp hroom hbl hf
    have hgk : k.length ≤ 250 := by
      simp [goodP] at hg
      exact hg.1.1.1
    have hgv : goodV v = true := by
      simp [goodP] at hg
      exact hg.1.2
    have hgt : goodP tl = true := by
      simp [goodP] at hg
      exact hg.2
    have htlen : (tokensP (BPairs.cons k v tl)).length
        = (k.length + 2) + ((tokensV v).length + (tokensP tl).length) := by
      simp [tokensP, tokensStr]
      omega
    rw [htlen] at hroom
    have hseg2 : SegAt s.buffer p
        (tokensStr k ++ (tokensV v ++ (tokensP tl ++ [tPop]))) := by
      have : tokensP (BPairs.cons k v tl) ++ [tPop]
          = tokensStr k ++ (tokensV v ++ (tokensP tl ++ [tPop])) := by
        show ((tokensStr k ++ tokensV v) ++ tokensP tl) ++ [tPop] = _
        rw [List.append_assoc, List.append_assoc]
      rw [this] at hseg
      exact hseg
    have hch : s.buffer.getD s.next 0 = k.length := by
      rw [hp]
      exact SegAt.head (by simpa [tokensStr] using SegAt.prefixSeg hseg2)
    have hnt := nextToken_str s k.length hgk hch (by omega) hbl
    have hfv : fuelV v ≤ f - 1 := by
      have := Nat.le_max_left (fuelV v) (fuelP tl)
      simp [fuelP] at hf
      omega
    have hft : fuelP tl ≤ f - 1 := by
      have := Nat.le_max_right (fuelV v) (fuelP tl)
      simp [fuelP] at hf
      omega
    cases f with
    | zero => simp [fuelP] at hf
    | succ f =>
      simp only [Nat.add_sub_cancel] at hfv hft
      have hsegk : SegAt s.buffer (s.next + 1) k := by
        rw [hp]
        have h8 : SegAt s.buffer p (k.length :: (k ++ [0])) := by
          simpa [tokensStr] using SegAt.prefixSeg hseg2
        exact SegAt.prefixSeg (SegAt.tail h8)
      have hkey : asStringBytes { s with
          next := s.next + k.length + 2
          last := s.next + 1 } = k := by
        refine asStringBytes_eq _ k (by simpa using hsegk) ?_ ?_ (by omega)
        · simpa using by omega
        · simp
          omega
      have hsegv : SegAt s.buffer (p + (k.length + 2)) (tokensV v) := by
        have := SegAt.suffixSeg hseg2
        rw [tokensStr_length] at this
        exact SegAt.prefixSeg this
      obtain ⟨l2, hrt⟩ := readTokOk v { s with
          next := s.next + k.length + 2
          last := s.next + 1 } (p + (k.length + 2)) f hgv (by simpa using hsegv)
        (by simp [hp]; omega) (by simp; omega) (by simpa using hbl) hfv
      obtain ⟨l3, hrp⟩ := readPairsOk tl
        { s with next := p + (k.length + 2) + (tokensV v).length, last := l2 }
        (p + (k.length + 2) + (tokensV v).length) f hgt
        (by
          have h5 := SegAt.suffixSeg (SegAt.suffixSeg hseg2)
          rw [tokensStr_length] at h5
          simpa [Nat.add_assoc] using h5)
        (by simp) (by simp; omega) (by simpa using hbl) hft
      refine ⟨l3, ?_⟩
      simp only [readPairs, hnt]
      rw [if_neg (by unfold tString tPop; omega)]
      simp only [if_true, hkey]
      rw [hrt]
      simp only [Option.some_bind']
      rw [hrp]
      simp only [Option.map_some]
      rw [htlen]
      rw [(by omega : p + (k.length + 2 + ((tokensV v).length + (tokensP tl).length)) + 1
        = p + (k.length + 2) + (tokensV v).length + (tokensP tl).length + 1)]
      rfl
end

/-! ## The claims -/

/-- A freshly constructed decoder (`EmBdecode()` runs `reset()`): level
0, write position 0, idle state.  The `count` and `last` fields are
uninitialized in the C++ code; the claim theorems constrain only the
fields that `reset` sets, so any initial values may be substituted. -/
def mkDecoder (buf : List Nat) : DState :=
  { level := 0, buffer := buf, count := 0, next := 0, last := 0, state := embAny }

/-- Claim C1: for every representable bencode value v (byte string,
signed integer including negative and zero, list, dictionary, and nested
combinations up to a bounded depth), encoding v with the encoder's push
operations and then feeding the produced wire bytes one at a time to the
decoder's `process` yields a completed token stream — 0 from every byte
but the last, the occupied byte count from the last — that, walked with
`nextToken`/`asString`/`asNumber`, reconstructs exactly v (and then
reports `T_END`). -/
theorem C1_roundtrip (v : BVal) (s : DState)
    (hg : goodV v = true) (hd : (depthV v : Int) ≤ 127)
    (hst : s.state = embAny) (hlev : s.level = 0) (hnext : s.next = 0)
    (hroom : (tokensV v).length + 1 ≤ s.buffer.length) (hbl : s.buffer.length ≤ 255) :
    (processAll s (encodeVal v)).2
        = List.replicate ((encodeVal v).length - 1) 0 ++ [(tokensV v).length + 1]
    ∧ ∃ t : DState,
        readTok (fuelV v) (processAll s (encodeVal v)).1 = some (v, t)
        ∧ (nextToken t).1 = tEnd := by
  obtain ⟨h1, _⟩ := processTop v s hg hd hst hlev hnext hroom hbl
  have hflen : (writeBlock s.buffer 0 (tokensV v ++ [tEnd])).length = s.buffer.length :=
    writeBlock_length _ _ _
  have hsegfull : SegAt (writeBlock s.buffer 0 (tokensV v ++ [tEnd])) 0
      (tokensV v ++ [tEnd]) := by
    refine writeBlock_seg _ _ _ ?_
    simp
    omega
  obtain ⟨l2, hrt⟩ := readTokOk v
    { level := 0
      buffer := writeBlock s.buffer 0 (tokensV v ++ [tEnd])
      count := (tokensV v).length + 1
      next := 0
      last := s.last
      state := embAny } 0 (fuelV v) hg
    (by simpa using SegAt.prefixSeg hsegfull) rfl
    (by simpa [hflen] using by omega) (by simpa [hflen] using hbl) (le_refl _)
  constructor
  · rw [h1]
  · refine ⟨
      { level := 0
        buffer := writeBlock s.buffer 0 (tokensV v ++ [tEnd])
        count := (tokensV v).length + 1
        next := 0 + (tokensV v).length
        last := l2
        state := embAny }, ?_, ?_⟩
    · rw [h1]
      exact hrt
    · have hch : (writeBlock s.buffer 0 (tokensV v ++ [tEnd])).getD
          (0 + (tokensV v).length) 0 = tEnd := by
        have := hsegfull (tokensV v).length (by simp)
        rw [this]
        rw [List.getD_append_right _ _ _ _ (le_refl _)]
        simp
      rw [nextToken_end _ (by simpa using hch) (by simp [hflen]; omega)]

/-- A sample value for the round-trip: the list ["s", -3]. -/
def sampleVal : BVal :=
  BVal.list (BList.cons (BVal.str [115]) (BList.cons (BVal.intg (-3)) BList.nil))

theorem C1_roundtrip_witness :
    (processAll (mkDecoder (List.replicate 20 0)) (encodeVal sampleVal)).2
        = List.replicate ((encodeVal sampleVal).length - 1) 0
          ++ [(tokensV sampleVal).length + 1]
    ∧ ∃ t : DState,
        readTok (fuelV sampleVal)
            (processAll (mkDecoder (List.replicate 20 0)) (encodeVal sampleVal)).1
          = some (sampleVal, t)
        ∧ (nextToken t).1 = tEnd :=
  C1_roundtrip sampleVal (mkDecoder (List.replicate 20 0)) (by decide) (by decide)
    rfl rfl rfl (by decide) (by decide)

/-- Claim C2, counterexample: the wire message `3:abc` (5 bytes) exceeds
a 4-byte decode buffer, yet the final `process` call returns 4 — the
ordinary positive completion count, not any distinct BufferOverflow
status (the return value is the only status channel, and it signals a
"complete packet") — while the buffer has been invalidated by writing
`T_END` into slot 0. -/
theorem C2_counterexample :
    ((mkDecoder [0, 0, 0, 0]).buffer.length = 4
      ∧ [51, 58, 97, 98, 99].length = 5)
    ∧ (processAll (mkDecoder [0, 0, 0, 0]) [51, 58, 97, 98, 99]).2 = [0, 0, 0, 0, 4]
    ∧ (processAll (mkDecoder [0, 0, 0, 0]) [51, 58, 97, 98, 99]).1.buffer.getD 0 0
        = tEnd := by
  decide

/-- Claim C2 (amended): the decoder has no BufferOverflow status.  Once
the buffer is full (`next` has reached its capacity), the overflowing
writes overwrite slot 0 with `T_END`, so the assembled token stream
reads as empty; when the top-level value closes (here: the `e` ending a
number), `process` still returns the ordinary positive completion count
rather than any overflow indication. -/
theorem C2_overflow_completion (s : DState) (hst : s.state = embInt)
    (hlev : s.level ≤ 0) (hover : s.buffer.length ≤ s.next)
    (hpos : 1 ≤ s.buffer.length) :
    (process s 101).2 = s.next
    ∧ 0 < (process s 101).2
    ∧ (process s 101).1.buffer.getD 0 0 = tEnd
    ∧ (process s 101).1.next = 0 := by
  rw [process_int_e s hst, addToBuf_full s 0 hover]
  rw [itemDone_done _ (by exact hlev)]
  rw [addToBuf_full _ tEnd (by simpa [List.length_set] using hover)]
  refine ⟨rfl, ?_, ?_, rfl⟩
  · show 0 < s.next
    omega
  · show ((s.buffer.set 0 tEnd).set 0 tEnd).getD 0 0 = tEnd
    obtain ⟨a, t, hb⟩ : ∃ a t, s.buffer = a :: t := by
      cases hb : s.buffer with
      | nil => rw [hb] at hpos; simp at hpos
      | cons a t => exact ⟨a, t, rfl⟩
    rw [hb]
    exact rfl

theorem C2_overflow_completion_witness :
    (process { level := 0, buffer := [7, 7], count := 0, next := 2, last := 0, state := embInt } 101).2 = 2
    ∧ 0 < (process { level := 0, buffer := [7, 7], count := 0, next := 2, last := 0, state := embInt } 101).2
    ∧ (process { level := 0, buffer := [7, 7], count := 0, next := 2, last := 0, state := embInt } 101).1.buffer.getD 0 0 = tEnd
    ∧ (process { level := 0, buffer := [7, 7], count := 0, next := 2, last := 0, state := embInt } 101).1.next = 0 :=
  C2_overflow_completion _ rfl (by decide) (by decide) (by decide)

/-- Claim C5: once the decode buffer's full capacity is reached
(`next ≥ bufLen`), every further `AddToBuf` write stays inside the
modelled buffer — its length is unchanged and no slot other than slot 0
is touched — and instead marks the message invalid deterministically by
overwriting the buffer's first slot with the `T_END` tag; the write
position does not advance, so every subsequent write behaves the same
way. -/
theorem C5_overflow_marks_end (s : DState) (ch : Nat)
    (h : s.buffer.length ≤ s.next) :
    (addToBuf s ch).buffer = s.buffer.set 0 tEnd
    ∧ (addToBuf s ch).buffer.length = s.buffer.length
    ∧ (∀ j, j ≠ 0 → (addToBuf s ch).buffer.getD j 0 = s.buffer.getD j 0)
    ∧ (addToBuf s ch).next = s.next
    ∧ (addToBuf s ch).buffer.length ≤ (addToBuf s ch).next := by
  rw [addToBuf_full s ch h]
  refine ⟨rfl, by simp, ?_, rfl, by simpa [List.length_set] using h⟩
  intro j hj
  simp only [List.getD_eq_getElem?_getD, List.getElem?_set]
  rw [if_neg (fun hh => hj hh.symm)]

theorem C5_overflow_marks_end_witness :
    (addToBuf { level := 0, buffer := [9, 9, 9], count := 0, next := 3, last := 0, state := embAny } 7).buffer = [9, 9, 9].set 0 tEnd
    ∧ (addToBuf { level := 0, buffer := [9, 9, 9], count := 0, next := 3, last := 0, state := embAny } 7).buffer.length = ([9, 9, 9] : List Nat).length
    ∧ (∀ j, j ≠ 0 → (addToBuf { level := 0, buffer := [9, 9, 9], count := 0, next := 3, last := 0, state := embAny } 7).buffer.getD j 0 = ([9, 9, 9] : List Nat).getD j 0)
    ∧ (addToBuf { level := 0, buffer := [9, 9, 9], count := 0, next := 3, last := 0, state := embAny } 7).next = 3
    ∧ (addToBuf { level := 0, buffer := [9, 9, 9], count := 0, next := 3, last := 0, state := embAny } 7).buffer.length
      ≤ (addToBuf { level := 0, buffer := [9, 9, 9], count := 0, next := 3, last := 0, state := embAny } 7).next :=
  C5_overflow_marks_end _ 7 (by decide)

set_option maxRecDepth 40000 in
/-- Claim C6: evaluation of `PushChar` at the failing input.  The
encoder's `PushChar` performs `buffer[buffIdx] = ch; buffIdx++` with no
bounds check and no error report (its return carries no status): with a
1-byte buffer, after 256 pushes of `'a'` the `uint8_t` cursor has
silently wrapped back to 0, and a 257th push of `'b'` overwrites the
earlier content of `buffer[0]` (the intervening writes land outside the
modelled buffer). -/
theorem C6_pushchar_unchecked :
    (pushChars { buffer := [0], buffIdx := 0 } (List.replicate 256 97)).buffIdx = 0
    ∧ (pushChars { buffer := [0], buffIdx := 0 } (List.replicate 256 97)).buffer = [97]
    ∧ (pushChars { buffer := [0], buffIdx := 0 }
        (List.replicate 256 97 ++ [98])).buffIdx = 1
    ∧ (pushChars { buffer := [0], buffIdx := 0 }
        (List.replicate 256 97 ++ [98])).buffer = [98] := by
  decide

/-- Claim C7: `push(long val)` emits `'i'`, then `'-'` and the magnitude
computed by negation if `val` is negative (well-defined only away from
the minimum representable value), then the decimal digits of the
magnitude, then `'e'`; in particular `push(3)` emits `i3e`, `push(-3)`
emits `i-3e` and `push(0)` emits `i0e`. -/
theorem C7_push_long (v : Int) (h1 : -2147483648 < v) (h2 : v < 2147483648) :
    pushLongB v = 105 :: ((if v < 0 then [45] else []) ++ decChars v.natAbs ++ [101])
    ∧ pushLongB 3 = [105, 51, 101]
    ∧ pushLongB (-3) = [105, 45, 51, 101]
    ∧ pushLongB 0 = [105, 48, 101] := by
  refine ⟨?_, by decide, by decide, by decide⟩
  unfold pushLongB intText
  rw [intMag_eq h1 h2]

theorem C7_push_long_witness :
    pushLongB (-3) = 105 :: ((if (-3 : Int) < 0 then [45] else [])
        ++ decChars (-3 : Int).natAbs ++ [101])
    ∧ pushLongB 3 = [105, 51, 101]
    ∧ pushLongB (-3) = [105, 45, 51, 101]
    ∧ pushLongB 0 = [105, 48, 101] :=
  C7_push_long (-3) (by decide) (by decide)

/-- Claim C8: once `nextToken` has returned `T_END`, the cursor `next`
is left where it was (the token is not consumed) and the buffer is
untouched, so every further `nextToken` call again returns `T_END` from
the same position. -/
theorem C8_end_idempotent (s : DState) (hch : s.buffer.getD s.next 0 = tEnd)
    (hn : s.next + 1 ≤ 255) :
    (nextToken s).1 = tEnd
    ∧ (nextToken s).2.next = s.next
    ∧ (nextToken s).2.buffer = s.buffer
    ∧ (nextToken (nextToken s).2).1 = tEnd
    ∧ (nextToken (nextToken s).2).2.next = s.next := by
  rw [nextToken_end s hch hn]
  refine ⟨rfl, rfl, rfl, ?_, ?_⟩
  · rw [nextToken_end _ (by simpa using hch) (by simpa using hn)]
  · rw [nextToken_end _ (by simpa using hch) (by simpa using hn)]

theorem C8_end_idempotent_witness :
    (nextToken { level := 0, buffer := [255, 7], count := 0, next := 0, last := 0, state := embAny }).1 = tEnd
    ∧ (nextToken { level := 0, buffer := [255, 7], count := 0, next := 0, last := 0, state := embAny }).2.next = 0
    ∧ (nextToken { level := 0, buffer := [255, 7], count := 0, next := 0, last := 0, state := embAny }).2.buffer = [255, 7]
    ∧ (nextToken (nextToken { level := 0, buffer := [255, 7], count := 0, next := 0, last := 0, state := embAny }).2).1 = tEnd
    ∧ (nextToken (nextToken { level := 0, buffer := [255, 7], count := 0, next := 0, last := 0, state := embAny }).2).2.next = 0 :=
  C8_end_idempotent _ (by decide) (by decide)

/-- Claim C9: after a `nextToken` call that returned a string token (for
a stored string of declared length `L = b.length`) or a number token,
`asString` designates the token's payload bytes inside the decode
buffer — the bytes starting at offset `last` are exactly the payload —
and the reported length `plen = next - last - 1` excludes the
terminator: exactly `L` for the string, and the number of ASCII
characters of the integer text for the number. -/
theorem C9_asString (s1 s2 : DState) (b t : List Nat)
    (hL : b.length ≤ 250)
    (hseg1 : SegAt s1.buffer s1.next (tokensStr b))
    (hroom1 : s1.next + b.length + 2 ≤ s1.buffer.length)
    (hb1 : s1.buffer.length ≤ 255)
    (hnum : s2.buffer.getD s2.next 0 = tNumber)
    (hne : ∀ c ∈ t, c ≠ 0)
    (hseg2 : SegAt s2.buffer (s2.next + 1) (t ++ [0]))
    (hroom2 : s2.next + t.length + 2 ≤ s2.buffer.length)
    (hb2 : s2.buffer.length ≤ 255) :
    ((nextToken s1).1 = tString
      ∧ (nextToken s1).2.last = s1.next + 1
      ∧ asStringLen (nextToken s1).2 = b.length
      ∧ asStringBytes (nextToken s1).2 = b)
    ∧ ((nextToken s2).1 = tNumber
      ∧ (nextToken s2).2.last = s2.next + 1
      ∧ asStringLen (nextToken s2).2 = t.length
      ∧ asStringBytes (nextToken s2).2 = t) := by
  have hseg1' : SegAt s1.buffer s1.next (b.length :: (b ++ [0])) := hseg1
  have hch1 : s1.buffer.getD s1.next 0 = b.length := SegAt.head hseg1'
  constructor
  · rw [nextToken_str s1 b.length hL hch1 (by omega) hb1]
    refine ⟨rfl, rfl, ?_, ?_⟩
    · exact asStringLen_eq _ b.length (by show s1.next + b.length + 2 = s1.next + 1 + b.length + 1; omega) (by omega)
    · exact asStringBytes_eq _ b (SegAt.prefixSeg (SegAt.tail hseg1'))
        (by show s1.next + 1 + b.length ≤ s1.buffer.length; omega)
        (by show s1.next + b.length + 2 = s1.next + 1 + b.length + 1; omega) (by omega)
  · rw [nextToken_num s2 t hnum hne hseg2 hroom2 hb2]
    refine ⟨rfl, rfl, ?_, ?_⟩
    · exact asStringLen_eq _ t.length (by show s2.next + t.length + 2 = s2.next + 1 + t.length + 1; omega) (by omega)
    · exact asStringBytes_eq _ t (SegAt.prefixSeg hseg2)
        (by show s2.next + 1 + t.length ≤ s2.buffer.length; omega)
        (by show s2.next + t.length + 2 = s2.next + 1 + t.length + 1; omega) (by omega)

theorem C9_asString_witness :
    ((nextToken { level := 0, buffer := [1, 97, 0], count := 0, next := 0, last := 0, state := embAny }).1 = tString
      ∧ (nextToken { level := 0, buffer := [1, 97, 0], count := 0, next := 0, last := 0, state := embAny }).2.last = 1
      ∧ asStringLen (nextToken { level := 0, buffer := [1, 97, 0], count := 0, next := 0, last := 0, state := embAny }).2 = 1
      ∧ asStringBytes (nextToken { level := 0, buffer := [1, 97, 0], count := 0, next := 0, last := 0, state := embAny }).2 = [97])
    ∧ ((nextToken { level := 0, buffer := [251, 45, 51, 0], count := 0, next := 0, last := 0, state := embAny }).1 = tNumber
      ∧ (nextToken { level := 0, buffer := [251, 45, 51, 0], count := 0, next := 0, last := 0, state := embAny }).2.last = 1
      ∧ asStringLen (nextToken { level := 0, buffer := [251, 45, 51, 0], count := 0, next := 0, last := 0, state := embAny }).2 = 2
      ∧ asStringBytes (nextToken { level := 0, buffer := [251, 45, 51, 0], count := 0, next := 0, last := 0, state := embAny }).2 = [45, 51]) :=
  C9_asString _ _ [97] [45, 51] (by decide) (by decide) (by decide) (by decide)
    (by decide) (by decide) (by decide) (by decide) (by decide)

/-- Claim C10: the length accumulator `count` and the emitted tag byte
are 8-bit: a digit in the LEN state updates `count` to
`(10*count + digit) mod 256`; processing the decimal digits of a
declared length `n` leaves `count = n mod 256`, and the subsequent `:`
writes the single tag byte `T_STRING + count = n mod 256`.  The control
tags sit at 251–255, so only declared lengths 0–250 are faithfully
representable: 251–255 collide with `T_NUMBER`, `T_DICT`, `T_LIST`,
`T_POP`, `T_END` respectively, and `n ≥ 256` is reduced modulo 256. -/
theorem C10_len_mod256 (s1 s2 : DState) (d n : Nat)
    (hst1 : s1.state = embLen) (hd : d ≠ 58)
    (hst2 : s2.state = embAny)
    (hroom : s2.next < s2.buffer.length) (hbl : s2.buffer.length ≤ 255)
    (hn : n % 256 ≠ 0) :
    (process s1 d).1.count = (10 * s1.count + (d - 48)) % 256
    ∧ (processAll s2 (decChars n)).1.count = n % 256
    ∧ process (processAll s2 (decChars n)).1 58
        = ({ s2 with state := embStr, count := n % 256, buffer := s2.buffer.set s2.next (n % 256), next := s2.next + 1 }, 0)
    ∧ (tString = 0 ∧ tNumber = 251 ∧ tDict = 252 ∧ tList = 253 ∧ tPop = 254
        ∧ tEnd = 255) := by
  obtain ⟨hh, -⟩ := processAll_header n s2 hst2
  refine ⟨?_, ?_, ?_, by decide⟩
  · rw [process_len_digit s1 d hst1 hd]
  · rw [hh]
  · rw [hh]
    have hcL : ({ s2 with state := embLen, count := n % 256 } : DState).count ≠ 0 := hn
    have hcol := process_len_colon { s2 with state := embLen, count := n % 256 } rfl hcL
    simp only at hcol
    rw [hcol]
    have hroomL : ({ s2 with state := embLen, count := n % 256 } : DState).next
        < ({ s2 with state := embLen, count := n % 256 } : DState).buffer.length := hroom
    have hblL : ({ s2 with state := embLen, count := n % 256 } : DState).buffer.length ≤ 255 := hbl
    have ha := addToBuf_ok { s2 with state := embLen, count := n % 256 }
      ((tString + n % 256) % 256) hroomL hblL
    simp only at ha
    rw [ha, (show (tString + n % 256) % 256 = n % 256 by unfold tString; omega)]

theorem C10_len_mod256_witness :
    (process { level := 0, buffer := [0], count := 25, next := 0, last := 0, state := embLen } 49).1.count = (10 * 25 + (49 - 48)) % 256
    ∧ (processAll { level := 0, buffer := [0, 0], count := 0, next := 0, last := 0, state := embAny } (decChars 251)).1.count = 251 % 256
    ∧ process (processAll { level := 0, buffer := [0, 0], count := 0, next := 0, last := 0, state := embAny } (decChars 251)).1 58
        = ({ level := 0, buffer := [0, 0], count := 0, next := 0, last := 0, state := embAny : DState } |> fun s2 =>
            ({ s2 with state := embStr, count := 251 % 256, buffer := s2.buffer.set s2.next (251 % 256), next := s2.next + 1 }, 0))
    ∧ (tString = 0 ∧ tNumber = 251 ∧ tDict = 252 ∧ tList = 253 ∧ tPop = 254
        ∧ tEnd = 255) :=
  C10_len_mod256 _ _ 49 251 rfl (by decide) rfl (by decide) (by decide) (by decide)

/-- Claim C3: the nesting counter `level` starts at 0 after a reset,
increases by one on every DICT-OPEN (`d`) and LIST-OPEN (`l`) token
emitted, decreases by one on every POP (`e`) token emitted, and on the
well-formed wire input obtained by encoding any representable value it
never goes negative during the in-progress decode (the running minimum
of `level` over the whole input is ≥ 0) and equals zero at the moment
the decoder reports completion. -/
theorem C3_level_counter (t1 t2 t3 s : DState) (ch : Nat) (v : BVal) :
    (resetD t1).1.level = 0
    ∧ (t2.state = embAny → (ch = 100 ∨ ch = 108) → -128 ≤ t2.level → t2.level ≤ 126 →
        (process t2 ch).1.level = t2.level + 1)
    ∧ (t3.state = embAny → 1 ≤ t3.level → t3.level ≤ 128 →
        (process t3 101).1.level = t3.level - 1)
    ∧ (goodV v = true → (depthV v : Int) ≤ 127 → s.state = embAny → s.level = 0 →
        s.next = 0 → (tokensV v).length + 1 ≤ s.buffer.length → s.buffer.length ≤ 255 →
        0 ≤ minLev s (encodeVal v) ∧ (processAll s (encodeVal v)).1.level = 0) := by
  refine ⟨rfl, ?_, ?_, ?_⟩
  · intro hst h hb1 hb2
    rw [process_any_open t2 ch hst h]
    show wrap8 (t2.level + 1) = t2.level + 1
    exact wrap8_id (by omega) (by omega)
  · intro hst hb1 hb2
    rw [process_any_pop t3 hst]
    rw [wrap8_id (x := t3.level - 1) (by omega) (by omega)]
    by_cases hp : 0 < t3.level - 1
    · have hpP : (0 : Int) < ({ addToBuf t3 tPop with level := t3.level - 1 } : DState).level := hp
      rw [itemDone_pos _ hpP]
    · have hle : ({ addToBuf t3 tPop with level := t3.level - 1 } : DState).level ≤ 0 := by
        show t3.level - 1 ≤ 0
        omega
      rw [itemDone_done _ hle]
      show (0 : Int) = t3.level - 1
      omega
  · intro hg hd hst hlev hnext hroom hbl
    obtain ⟨h1, h2⟩ := processTop v s hg hd hst hlev hnext hroom hbl
    exact ⟨h2.ge, by rw [h1]⟩

theorem C3_level_counter_witness :
    (resetD { level := 5, buffer := [0], count := 0, next := 1, last := 0, state := embAny }).1.level = 0
    ∧ (process { level := 0, buffer := [0, 0], count := 0, next := 0, last := 0, state := embAny } 108).1.level = 0 + 1
    ∧ (process { level := 1, buffer := [0, 0], count := 0, next := 0, last := 0, state := embAny } 101).1.level = 1 - 1
    ∧ (0 ≤ minLev { level := 0, buffer := [0, 0, 0, 0], count := 0, next := 0, last := 0, state := embAny } (encodeVal (BVal.intg 7))
        ∧ (processAll { level := 0, buffer := [0, 0, 0, 0], count := 0, next := 0, last := 0, state := embAny } (encodeVal (BVal.intg 7))).1.level = 0) := by
  have h := C3_level_counter
    { level := 5, buffer := [0], count := 0, next := 1, last := 0, state := embAny }
    { level := 0, buffer := [0, 0], count := 0, next := 0, last := 0, state := embAny }
    { level := 1, buffer := [0, 0], count := 0, next := 0, last := 0, state := embAny }
    { level := 0, buffer := [0, 0, 0, 0], count := 0, next := 0, last := 0, state := embAny }
    108 (BVal.intg 7)
  exact ⟨h.1, h.2.1 rfl (Or.inr rfl) (by decide) (by decide),
    h.2.2.1 rfl (by decide) (by decide),
    h.2.2.2 (by decide) (by decide) rfl rfl rfl (by decide) (by decide)⟩

/-- Claim C4: the completion check after an item.  When an item
finishes with `level = 0`, the decoder appends the `T_END` tag, resets
its write position to offset 0 and parse state to ANY, and returns the
number of buffer bytes the finished message occupied (`next + 1`,
stored in `count` as the previous-message size); when `level > 0` it
returns the not-yet-complete status 0 and resets the parse state to
ANY.  All four item-finishing inputs — the `e` of a number, the last
byte of a string, the `:` of an empty string, and the `e` popping a
dict/list — route through this check. -/
theorem C4_completion (s s1 s2 s3 s4 : DState) (b : Nat)
    (hroom : s.next < s.buffer.length) (hbl : s.buffer.length ≤ 255)
    (h1 : s1.state = embInt) (h2 : s2.state = embStr) (h2c : s2.count = 1)
    (h3 : s3.state = embLen) (h3c : s3.count = 0) (h4 : s4.state = embAny) :
    itemDone s = (if 0 < s.level then ({ s with state := embAny }, 0)
      else ({ level := 0, buffer := s.buffer.set s.next tEnd, count := s.next + 1, next := 0, last := s.last, state := embAny }, s.next + 1))
    ∧ process s1 101 = itemDone (addToBuf s1 0)
    ∧ process s2 b = itemDone (addToBuf { addToBuf s2 b with count := 0 } 0)
    ∧ process s3 58 = itemDone (addToBuf (addToBuf s3 ((tString + s3.count) % 256)) 0)
    ∧ process s4 101 = itemDone { addToBuf s4 tPop with level := wrap8 (s4.level - 1) } := by
  refine ⟨?_, process_int_e s1 h1, process_str_last s2 b h2 h2c,
    process_len_colon_empty s3 h3 h3c, process_any_pop s4 h4⟩
  by_cases hp : 0 < s.level
  · rw [if_pos hp, itemDone_pos s hp]
  · rw [if_neg hp, itemDone_done s (by omega)]
    rw [addToBuf_ok s tEnd hroom hbl]
    exact rfl

theorem C4_completion_witness :
    itemDone { level := 0, buffer := [0, 0], count := 0, next := 0, last := 0, state := embAny }
      = (if (0 : Int) < 0 then ({ level := 0, buffer := [0, 0], count := 0, next := 0, last := 0, state := embAny : DState }, 0)
        else ({ level := 0, buffer := ([0, 0] : List Nat).set 0 tEnd, count := 0 + 1, next := 0, last := 0, state := embAny }, 0 + 1))
    ∧ process { level := 0, buffer := [0, 0], count := 0, next := 0, last := 0, state := embInt } 101
        = itemDone (addToBuf { level := 0, buffer := [0, 0], count := 0, next := 0, last := 0, state := embInt } 0)
    ∧ process { level := 0, buffer := [0, 0], count := 1, next := 0, last := 0, state := embStr } 97
        = itemDone (addToBuf { addToBuf { level := 0, buffer := [0, 0], count := 1, next := 0, last := 0, state := embStr } 97 with count := 0 } 0)
    ∧ process { level := 0, buffer := [0, 0], count := 0, next := 0, last := 0, state := embLen } 58
        = itemDone (addToBuf (addToBuf { level := 0, buffer := [0, 0], count := 0, next := 0, last := 0, state := embLen } ((tString + 0) % 256)) 0)
    ∧ process { level := 0, buffer := [0, 0], count := 0, next := 0, last := 0, state := embAny } 101
        = itemDone { addToBuf { level := 0, buffer := [0, 0], count := 0, next := 0, last := 0, state := embAny } tPop with level := wrap8 (0 - 1) } :=
  C4_completion
    { level := 0, buffer := [0, 0], count := 0, next := 0, last := 0, state := embAny }
    { level := 0, buffer := [0, 0], count := 0, next := 0, last := 0, state := embInt }
    { level := 0, buffer := [0, 0], count := 1, next := 0, last := 0, state := embStr }
    { level := 0, buffer := [0, 0], count := 0, next := 0, last := 0, state := embLen }
    { level := 0, buffer := [0, 0], count := 0, next := 0, last := 0, state := embAny }
    97 (by decide) (by decide) rfl rfl rfl rfl rfl rfl

end EmBenc
